/-
Verification of the multi-table batch-insert engine
(`MySQLScript.py` / `MutiTableBatchDeal.py`).

Shallow embedding: the pure logic of the Python code is translated to
executable Lean definitions.  The database collaborator is abstracted as a
deterministic physical-key assignment `phys : String → Val → Val`
(table name × logical key ↦ physical key); SQL statement texts are modelled
as the strings the code builds.  Python dicts are modelled as association
lists with first-match lookup and in-place update, which agrees with dict
semantics whenever keys are unique (the spec's data model requires table
names unique within a run).
-/
import Mathlib

namespace MyTest

/-- A scalar row field: text, integer or NULL (the cases the engine's logic
actually distinguishes; decimals/timestamps behave like opaque scalars). -/
inductive Val where
  | str (s : String)
  | int (n : Int)
  | null
deriving DecidableEq, Repr

/-- A row is a tuple of scalar fields, positionally aligned with `columns`. -/
abbrev Row := List Val

/-- The `table_data_configs` entry shape of `batch_insert_related_tables` /
`_order_table_configs_by_dependency` in `MySQLScript.py`: a table name, the
column list, the row data, the declared parent tables
(`dependencies[*]['parent_table']`), and an optional per-table batch size. -/
structure TableConfig where
  table_name : String
  columns : List String
  data : List Row
  dependencies : List String
  batch_size : Option Nat := none
deriving DecidableEq, Repr

/-- The dependency lists dict built by `_order_table_configs_by_dependency`:
`dependencies.get(name, [])`.  With unique table names this is the declared
parent list of the config called `name`, and `[]` for unknown names. -/
def depsOf (configs : List TableConfig) (name : String) : List String :=
  match configs.find? (fun c => c.table_name == name) with
  | some c => c.dependencies
  | none => []

/-- Error outcomes of the embedded resolver: `keyError` is Python's
`KeyError` on `config_map[table_name]` for a parent that has no config;
`fuelOut` is an artefact of the explicit recursion-depth fuel (proved
unreachable for the fuel the top-level entry point supplies). -/
inductive DfsErr where
  | keyError (name : String)
  | fuelOut
deriving DecidableEq, Repr

/-- The recursive `dfs` of `_order_table_configs_by_dependency`, with the
visited set and output list passed explicitly.  `.inl name` is a `dfs(name)`
call; `.inr ds` is the `for dep in dependencies.get(name, []): dfs(dep)`
loop (and, at top level, `for table_name in dependencies: dfs(table_name)`).
Recursion depth is bounded by explicit fuel. -/
def dfsStep (configs : List TableConfig) :
    Nat → String ⊕ List String → List String → List TableConfig →
    Except DfsErr (List String × List TableConfig)
  | 0, _, _, _ => .error .fuelOut
  | fuel + 1, .inl name, visited, order =>
    if name ∈ visited then .ok (visited, order)
    else
      match dfsStep configs fuel (.inr (depsOf configs name)) (name :: visited) order with
      | .error e => .error e
      | .ok (visited', order') =>
        match configs.find? (fun c => c.table_name == name) with
        | some c => .ok (visited', order' ++ [c])
        | none => .error (.keyError name)
  | _ + 1, .inr [], visited, order => .ok (visited, order)
  | fuel + 1, .inr (d :: ds), visited, order =>
    match dfsStep configs fuel (.inl d) visited order with
    | .error e => .error e
    | .ok (visited', order') => dfsStep configs fuel (.inr ds) visited' order'

/-- All parent names declared anywhere in the configuration set. -/
def allDeps (configs : List TableConfig) : List String :=
  (configs.map (fun c => c.dependencies)).flatten

/-- Fuel that is provably sufficient for `dfsStep` (recursion depth is
bounded by the number of distinct table/parent names, with each visit
descending through at most one dependency list). -/
def topoFuel (configs : List TableConfig) : Nat :=
  let b := configs.length + (allDeps configs).length
  b * ((allDeps configs).length + 1) + b + 2

/-- Embeds `_order_table_configs_by_dependency` (same algorithm as
`_order_tables_by_dependency`): DFS over the dependency dict in input order,
appending each table after its declared parents. -/
def orderTableConfigsByDependency (configs : List TableConfig) :
    Except DfsErr (List TableConfig) :=
  match dfsStep configs (topoFuel configs) (.inr (configs.map (fun c => c.table_name))) [] [] with
  | .ok (_, order) => .ok order
  | .error e => .error e

/-! ## Batch partitioning (`_batch_execute_single_threaded` / `_batch_execute_multithreaded`) -/

/-- The slicing loop `for i in range(0, len(data_list), batch_size):
batch = data_list[i:i + batch_size]`, with explicit fuel (one slice removes
at least one element when `batchSize ≥ 1`, so `data.length` steps suffice). -/
def chunksGo (batchSize : Nat) : Nat → List α → List (List α)
  | 0, _ => []
  | _, [] => []
  | fuel + 1, x :: xs => (x :: xs).take batchSize :: chunksGo batchSize fuel ((x :: xs).drop batchSize)

/-- The batches produced from `data_list` with the given `batch_size`. -/
def chunks (batchSize : Nat) (data : List α) : List (List α) :=
  chunksGo batchSize data.length data

/-- The batches executed by `_batch_execute_single_threaded`
(`data_list[i:i + batch_size]` for `i in range(0, len(data_list), batch_size)`). -/
def singleThreadedBatches (data : List Row) (batchSize : Nat) : List (List Row) :=
  chunks batchSize data

/-- The batches submitted to the worker pool by `_batch_execute_multithreaded`
(`batches = [data_list[i:i + batch_size] for i in range(0, len(data_list), batch_size)]`). -/
def multithreadedBatches (data : List Row) (batchSize : Nat) : List (List Row) :=
  chunks batchSize data

/-! ## ID mapping registry (`id_mapping` dict of `MutiTableBatchDeal.py`) -/

/-- A Python dict modelled as an association list: insertion order kept,
first-match lookup, assignment replaces in place or appends. -/
def dictGet (l : List (Val × Val)) (k : Val) : Option Val :=
  (l.find? (fun p => p.1 == k)).map (fun p => p.2)

/-- Assignment `d[k] = v` on an inner dict: replace the existing entry or append. -/
def dictSet (l : List (Val × Val)) (k v : Val) : List (Val × Val) :=
  if l.any (fun p => p.1 == k) then
    l.map (fun p => if p.1 == k then (k, v) else p)
  else l ++ [(k, v)]

/-- The `id_mapping` registry: table key ↦ (logical key ↦ physical key). -/
abbrev IdMapping := List (String × List (Val × Val))

/-- Lookup `id_mapping.get(table, {})`. -/
def getTable (m : IdMapping) (t : String) : List (Val × Val) :=
  match m.find? (fun p => p.1 == t) with
  | some p => p.2
  | none => []

/-- Step `if table not in id_mapping: id_mapping[table] = {}`. -/
def ensureTable (m : IdMapping) (t : String) : IdMapping :=
  if m.any (fun p => p.1 == t) then m else m ++ [(t, [])]

/-- Assignment `id_mapping[table][logical] = physical` (table entry assumed present). -/
def setTableKey (m : IdMapping) (t : String) (k v : Val) : IdMapping :=
  m.map (fun p => if p.1 == t then (p.1, dictSet p.2 k v) else p)

/-- One registry `record` step: the `id_mapping[table_name][mapping_value] =
record_id` assignment of `_update_id_mapping`, preceded by the
ensure-table-entry step. -/
def recordMapping (m : IdMapping) (t : String) (logicalKey physicalKey : Val) : IdMapping :=
  setTableKey (ensureTable m t) t logicalKey physicalKey

/-- Lookup `Registry.resolve(tableKey, logicalKey)`:
`id_mapping.get(ref_table, {}).get(logical_key)`. -/
def resolveMapping (m : IdMapping) (t : String) (logicalKey : Val) : Option Val :=
  dictGet (getTable m t) logicalKey

/-! ## Table configs of `MutiTableBatchDeal.py` -/

/-- A `table_configs` entry of `batch_insert_multiple_tables` /
`batch_insert_with_checkpoint`: `foreign_keys` maps a column name to
`(referenced table, referenced key field)`. -/
structure MTConfig where
  table_name : String
  columns : List String
  data_list : List Row
  mapping_key : Option String := none
  id_field : String := "id"
  foreign_keys : List (String × String × String) := []
  batch_size : Nat := 1000
deriving DecidableEq, Repr

/-- Lookup `fk_references[column]` (after the `column in fk_references` test). -/
def fkLookup (fks : List (String × String × String)) (col : String) :
    Option (String × String) :=
  (fks.find? (fun e => e.1 == col)).map (fun e => e.2)

/-- Failures of the rewriter: `missing` is the
`ValueError(f"找不到{ref_table}表中{logical_key}对应的ID")` raised when a
logical key has no recorded mapping; `indexErr` is Python's `IndexError`
when a foreign-key column index falls outside the row. -/
inductive FkErr where
  | missing (parentTable : String) (logicalKey : Val)
  | indexErr
deriving DecidableEq, Repr

/-- The inner loop of `_process_foreign_keys` over one row: walk the columns
positionally; at a declared foreign-key column replace the cell by
`id_mapping.get(ref_table, {}).get(logical_key)`, failing if absent; leave
every other cell unchanged. -/
def processRow (fks : List (String × String × String)) (m : IdMapping) :
    List String → Row → Except FkErr Row
  | [], rest => .ok rest
  | col :: cols, v :: vs =>
    match fkLookup fks col with
    | none =>
      match processRow fks m cols vs with
      | .ok out => .ok (v :: out)
      | .error e => .error e
    | some (refTable, _) =>
      match resolveMapping m refTable v with
      | some actualId =>
        match processRow fks m cols vs with
        | .ok out => .ok (actualId :: out)
        | .error e => .error e
      | none => .error (.missing refTable v)
  | col :: cols, [] =>
    match fkLookup fks col with
    | none => processRow fks m cols []
    | some _ => .error .indexErr

/-- The `for row in data_list` loop of `_process_foreign_keys`: rewrite each
row in order, aborting at the first failure. -/
def processRows (fks : List (String × String × String)) (m : IdMapping)
    (columns : List String) : List Row → Except FkErr (List Row)
  | [] => .ok []
  | row :: rest =>
    match processRow fks m columns row with
    | .error e => .error e
    | .ok newRow =>
      match processRows fks m columns rest with
      | .error e => .error e
      | .ok out => .ok (newRow :: out)

/-- Embeds `_process_foreign_keys`: rewrite every row of the config's
`data_list`.  Pure: it reads the registry and the caller's rows and builds a
fresh list, mutating neither. -/
def processForeignKeys (m : IdMapping) (cfg : MTConfig) : Except FkErr (List Row) :=
  processRows cfg.foreign_keys m cfg.columns cfg.data_list

/-! ## SQL texts issued by the core -/

/-- Embeds `_build_insert_sql` (and the identical inline construction in
`_insert_single_table_with_mapping` and `batch_insert`): a parameterized
INSERT template built from the table name and column list only. -/
def buildInsertSql (tableName : String) (columns : List String) : String :=
  let columnsStr := ", ".intercalate (columns.map (fun col => "`" ++ col ++ "`"))
  let placeholders := ", ".intercalate (List.replicate columns.length "%s")
  "INSERT INTO `" ++ tableName ++ "` (" ++ columnsStr ++ ") VALUES (" ++ placeholders ++ ")"

/-- Rendering of a key value interpolated into SQL text (`str.join` requires
the keys to already be strings in the Python code). -/
def valText : Val → String
  | .str s => s
  | .int n => toString n
  | .null => "None"

/-- Extraction `row[0]`, the assumed logical-key column of a row
(`# 假设mapping_key是第一列`). -/
def rowKey (r : Row) : Val := r.headD .null

/-- The ID-lookup query of `_update_id_mapping`:
`key_list = "','".join(row[0] for row in original_data)` interpolated into
`SELECT id_field, mapping_key FROM table WHERE mapping_key IN ('key_list')`
(whitespace of the Python triple-quoted literal elided). -/
def buildMappingQuerySql (tableName mappingKey idField : String)
    (originalData : List Row) : String :=
  let keyList := "','".intercalate (originalData.map (fun row => valText (rowKey row)))
  "SELECT `" ++ idField ++ "`, `" ++ mappingKey ++ "` FROM `" ++ tableName ++
    "` WHERE `" ++ mappingKey ++ "` IN ('" ++ keyList ++ "')"

/-! ## Single-table insertion and the checkpoint run
(`_insert_single_table_with_mapping`, `batch_insert_with_checkpoint`).

The database is abstracted as a deterministic key assignment
`phys : String → Val → Val`: the ID-lookup query of `_update_id_mapping`
returns, for each inserted row with logical key `k`, the pair
`(phys table k, k)`. -/

/-- The mapping rows `_update_id_mapping` reads back for a table:
one `(mapping_value, record_id)` pair per original row, keyed by `row[0]`. -/
def mappingEntries (phys : String → Val → Val) (t : String) (originalData : List Row) :
    List (Val × Val) :=
  originalData.map (fun row => (rowKey row, phys t (rowKey row)))

/-- Embeds `_update_id_mapping`: ensure the table's dict exists, then assign
`id_mapping[table][mapping_value] = record_id` for each queried pair. -/
def updateIdMapping (m : IdMapping) (t : String) (entries : List (Val × Val)) : IdMapping :=
  entries.foldl (fun acc e => setTableKey acc t e.1 e.2) (ensureTable m t)

/-- Observable events of a checkpointed run, in program order. -/
inductive Ev where
  | beginTx
  | execBatch (table : String) (batch : List Row)
  | mappingUpdate (table : String)
  | saveCheckpoint (completedTables : Nat)
  | commit
  | removeCheckpoint
  | rollback
deriving DecidableEq, Repr

/-- Embeds `_insert_single_table_with_mapping`: rewrite foreign keys, execute the
batched INSERTs, then (when `mapping_key` is set) read back and record the
table's ID mapping.  Returns the updated registry and the events emitted. -/
def insertSingleTableWithMapping (phys : String → Val → Val) (m : IdMapping)
    (cfg : MTConfig) : Except FkErr (IdMapping × List Ev) :=
  match processForeignKeys m cfg with
  | .error e => .error e
  | .ok processed =>
    let evs := (chunks cfg.batch_size processed).map (fun b => Ev.execBatch cfg.table_name b)
    match cfg.mapping_key with
    | some _ =>
      .ok (updateIdMapping m cfg.table_name (mappingEntries phys cfg.table_name cfg.data_list),
           evs ++ [Ev.mappingUpdate cfg.table_name])
    | none => .ok (m, evs)

/-- The `for i in range(start_index, len(table_configs))` loop of
`batch_insert_with_checkpoint`: insert each remaining table, then persist a
checkpoint recording `completed_tables = i + 1`.  `n` is the absolute index
of the next table.  Events emitted before a failure are kept. -/
def checkpointLoop (phys : String → Val → Val) :
    List MTConfig → Nat → IdMapping → List Ev × Except FkErr IdMapping
  | [], _, m => ([], .ok m)
  | cfg :: rest, n, m =>
    match insertSingleTableWithMapping phys m cfg with
    | .error e => ([], .error e)
    | .ok (m', evs) =>
      let (evs', res) := checkpointLoop phys rest (n + 1) m'
      (evs ++ Ev.saveCheckpoint (n + 1) :: evs', res)

/-- The persisted checkpoint record: `completed_tables` and `id_mapping`
(`_load_checkpoint` returns `{'completed_tables': 0, 'id_mapping': {}}`
when no file exists, so a fresh run is the zero checkpoint). -/
structure Checkpoint where
  completed_tables : Nat
  id_mapping : IdMapping
deriving DecidableEq, Repr

/-- Embeds `batch_insert_with_checkpoint`: open one transaction, resume the table
loop at `checkpoint['completed_tables']` with the snapshotted registry,
then commit and delete the checkpoint on success or roll back on failure.
Returns the event trace and the final registry (or error). -/
def batchInsertWithCheckpoint (phys : String → Val → Val)
    (tableConfigs : List MTConfig) (cp : Checkpoint) :
    List Ev × Except FkErr IdMapping :=
  let (evs, res) :=
    checkpointLoop phys (tableConfigs.drop cp.completed_tables) cp.completed_tables cp.id_mapping
  match res with
  | .ok m => (Ev.beginTx :: evs ++ [Ev.commit, Ev.removeCheckpoint], .ok m)
  | .error e => (Ev.beginTx :: evs ++ [Ev.rollback], .error e)

/-- Just the registry evolution of the table loop (the event counter does
not influence it). -/
def runMapping (phys : String → Val → Val) :
    List MTConfig → IdMapping → Except FkErr IdMapping
  | [], m => .ok m
  | cfg :: rest, m =>
    match insertSingleTableWithMapping phys m cfg with
    | .error e => .error e
    | .ok (m', _) => runMapping phys rest m'

/-! ## Batch partition lemmas -/

lemma chunksGo_flatten {α : Type} {batchSize : Nat} (hB : 0 < batchSize) :
    ∀ (fuel : Nat) (l : List α), l.length ≤ fuel →
      (chunksGo batchSize fuel l).flatten = l := by
  intro fuel
  induction fuel with
  | zero =>
    intro l hl
    have : l = [] := List.eq_nil_of_length_eq_zero (Nat.le_zero.mp hl)
    subst this
    rfl
  | succ fuel ih =>
    intro l hl
    match l with
    | [] => rfl
    | x :: xs =>
      have hdrop : ((x :: xs).drop batchSize).length ≤ fuel := by
        rw [List.length_drop]
        have := List.length_cons x xs ▸ hl
        omega
      simp only [chunksGo, List.flatten_cons, ih _ hdrop, List.take_append_drop]

lemma chunksGo_length {α : Type} {batchSize : Nat} (hB : 0 < batchSize) :
    ∀ (fuel : Nat) (l : List α), l.length ≤ fuel →
      (chunksGo batchSize fuel l).length = (l.length + batchSize - 1) / batchSize := by
  intro fuel
  induction fuel with
  | zero =>
    intro l hl
    have : l = [] := List.eq_nil_of_length_eq_zero (Nat.le_zero.mp hl)
    subst this
    simp only [chunksGo, List.length_nil]
    rw [Nat.div_eq_of_lt (by omega)]
  | succ fuel ih =>
    intro l hl
    match l with
    | [] =>
      simp only [chunksGo, List.length_nil]
      have : batchSize - 1 < batchSize := by omega
      simp [Nat.div_eq_of_lt this]
    | x :: xs =>
      have hdrop : ((x :: xs).drop batchSize).length ≤ fuel := by
        rw [List.length_drop]
        have := List.length_cons x xs ▸ hl
        omega
      rw [chunksGo, List.length_cons, ih _ hdrop, List.length_drop, List.length_cons]
      rcases Nat.lt_or_ge (xs.length + 1) batchSize with hcase | hcase
      · rw [Nat.sub_eq_zero_of_le (Nat.le_of_lt hcase)]
        rw [Nat.div_eq_of_lt (by omega), Nat.div_eq_of_lt_le (k := 1) (by omega) (by omega)]
      · have h1 : xs.length + 1 - batchSize + batchSize - 1 = xs.length := by omega
        have h2 : xs.length + 1 + batchSize - 1 = xs.length + batchSize := by omega
        rw [h1, h2, Nat.add_div_right _ hB]

/-- C4: for every row list and every batch size `B > 0`, both the sequential
executor (`_batch_execute_single_threaded`) and the concurrent executor
(`_batch_execute_multithreaded`) partition the rows into exactly
`ceil(N / B)` contiguous batches whose concatenation is the original list,
so each row appears in exactly one batch exactly once. -/
theorem c4_batch_executor_partition (data : List Row) (batchSize : Nat)
    (hB : 0 < batchSize) :
    (singleThreadedBatches data batchSize).length
        = (data.length + batchSize - 1) / batchSize ∧
    (singleThreadedBatches data batchSize).flatten = data ∧
    (multithreadedBatches data batchSize).length
        = (data.length + batchSize - 1) / batchSize ∧
    (multithreadedBatches data batchSize).flatten = data := by
  refine ⟨?_, ?_, ?_, ?_⟩ <;>
    simp only [singleThreadedBatches, multithreadedBatches, chunks] <;>
    first
      | exact chunksGo_length hB _ _ (Nat.le_refl _)
      | exact chunksGo_flatten hB _ _ (Nat.le_refl _)

/-- Witness for C4: 5 rows with batch size 2 give `ceil(5/2) = 3` batches
that concatenate back to the original list. -/
theorem c4_batch_executor_partition_witness :
    (0 < 2) ∧
    ((singleThreadedBatches [[Val.int 1], [Val.int 2], [Val.int 3], [Val.int 4], [Val.int 5]] 2).length
        = ([[Val.int 1], [Val.int 2], [Val.int 3], [Val.int 4], [Val.int 5]].length + 2 - 1) / 2 ∧
      (singleThreadedBatches [[Val.int 1], [Val.int 2], [Val.int 3], [Val.int 4], [Val.int 5]] 2).flatten
        = [[Val.int 1], [Val.int 2], [Val.int 3], [Val.int 4], [Val.int 5]] ∧
      (multithreadedBatches [[Val.int 1], [Val.int 2], [Val.int 3], [Val.int 4], [Val.int 5]] 2).length
        = ([[Val.int 1], [Val.int 2], [Val.int 3], [Val.int 4], [Val.int 5]].length + 2 - 1) / 2 ∧
      (multithreadedBatches [[Val.int 1], [Val.int 2], [Val.int 3], [Val.int 4], [Val.int 5]] 2).flatten
        = [[Val.int 1], [Val.int 2], [Val.int 3], [Val.int 4], [Val.int 5]]) :=
  ⟨by decide, c4_batch_executor_partition _ 2 (by decide)⟩

/-! ## Registry lemmas (dict update semantics) -/

lemma find?_key_update_self (l : List (Val × Val)) (k v : Val)
    (hany : l.any (fun p => p.1 == k) = true) :
    List.find? (fun p => p.1 == k)
      (l.map (fun p => if p.1 == k then (k, v) else p)) = some (k, v) := by
  induction l with
  | nil => simp at hany
  | cons p rest ih =>
    rw [List.map_cons]
    by_cases hp : (p.1 == k) = true
    · rw [if_pos hp]
      exact List.find?_cons_of_pos _ (by simp)
    · rw [if_neg hp, List.find?_cons_of_neg (p := fun q : Val × Val => q.1 == k) _ hp]
      exact ih (by simpa [List.any_cons, hp] using hany)

lemma find?_key_update_ne (l : List (Val × Val)) (k v k' : Val) (h : k' ≠ k) :
    List.find? (fun p => p.1 == k')
      (l.map (fun p => if p.1 == k then (k, v) else p))
      = List.find? (fun p => p.1 == k') l := by
  have hbeq : (k == k') = false := beq_eq_false_iff_ne.mpr (fun hk => h hk.symm)
  induction l with
  | nil => rfl
  | cons p rest ih =>
    rw [List.map_cons]
    by_cases hp : (p.1 == k) = true
    · have hpk : p.1 = k := by simpa using hp
      rw [if_pos hp, List.find?_cons_of_neg (p := fun q : Val × Val => q.1 == k') _ (by simp [hbeq]),
        List.find?_cons_of_neg (p := fun q : Val × Val => q.1 == k') _ (by simp [hpk, hbeq])]
      exact ih
    · rw [if_neg hp]
      by_cases hp' : (p.1 == k') = true
      · rw [List.find?_cons_of_pos (p := fun q : Val × Val => q.1 == k') _ hp',
          List.find?_cons_of_pos (p := fun q : Val × Val => q.1 == k') _ hp']
      · rw [List.find?_cons_of_neg (p := fun q : Val × Val => q.1 == k') _ hp',
          List.find?_cons_of_neg (p := fun q : Val × Val => q.1 == k') _ hp']
        exact ih

lemma dictGet_dictSet_self (l : List (Val × Val)) (k v : Val) :
    dictGet (dictSet l k v) k = some v := by
  unfold dictSet
  by_cases h : l.any (fun p => p.1 == k) = true
  · simp only [h, if_true, dictGet, find?_key_update_self l k v h]
    rfl
  · simp only [h, if_false, dictGet, List.find?_append]
    have hnone : l.find? (fun p => p.1 == k) = none := by
      rw [List.find?_eq_none]
      intro x hx hpx
      exact h (List.any_eq_true.mpr ⟨x, hx, hpx⟩)
    simp [hnone]

lemma dictGet_dictSet_ne (l : List (Val × Val)) (k v k' : Val) (h : k' ≠ k) :
    dictGet (dictSet l k v) k' = dictGet l k' := by
  have hbeq : (k == k') = false := beq_eq_false_iff_ne.mpr (fun hk => h hk.symm)
  unfold dictSet
  by_cases hany : l.any (fun p => p.1 == k) = true
  · simp only [hany, if_true, dictGet, find?_key_update_ne l k v k' h]
  · simp only [hany, if_false, dictGet, List.find?_append]
    have : List.find? (fun p => p.1 == k') [(k, v)] = none := by
      simp [List.find?_cons, hbeq]
    cases hfind : l.find? (fun p => p.1 == k') <;> simp [this, hfind]

lemma any_ensureTable (m : IdMapping) (t : String) :
    (ensureTable m t).any (fun p => p.1 == t) = true := by
  unfold ensureTable
  by_cases h : m.any (fun p => p.1 == t) = true
  · simp [h]
  · simp [h, List.any_append]

lemma getTable_ensureTable_self (m : IdMapping) (t : String) :
    getTable (ensureTable m t) t = getTable m t := by
  unfold ensureTable getTable
  by_cases h : m.any (fun p => p.1 == t) = true
  · simp [h]
  · have hnone : m.find? (fun p => p.1 == t) = none := by
      rw [List.find?_eq_none]
      intro x hx hpx
      exact h (List.any_eq_true.mpr ⟨x, hx, hpx⟩)
    simp [h, List.find?_append, hnone]

lemma getTable_ensureTable_ne (m : IdMapping) (t t' : String) (h : t' ≠ t) :
    getTable (ensureTable m t) t' = getTable m t' := by
  have hbeq : (t == t') = false := beq_eq_false_iff_ne.mpr (fun ht => h ht.symm)
  unfold ensureTable getTable
  by_cases hany : m.any (fun p => p.1 == t) = true
  · simp [hany]
  · simp [hany, List.find?_append, List.find?_cons, hbeq]

lemma find?_map_pred_preserve {α : Type} (q : α → Bool) (f : α → α)
    (hf : ∀ x, q (f x) = q x) :
    ∀ l : List α, List.find? q (l.map f) = (l.find? q).map f := by
  intro l
  induction l with
  | nil => rfl
  | cons x rest ih =>
    rw [List.map_cons]
    by_cases hq : q x = true
    · rw [List.find?_cons_of_pos _ (by rw [hf]; exact hq), List.find?_cons_of_pos _ hq]
      rfl
    · rw [List.find?_cons_of_neg _ (by rw [hf]; exact hq), List.find?_cons_of_neg _ hq]
      exact ih

lemma setTableKey_key_preserved (t t' : String) (k v : Val) :
    ∀ p : String × List (Val × Val),
      ((if p.1 == t then (p.1, dictSet p.2 k v) else p).1 == t') = (p.1 == t') := by
  intro p
  by_cases hp : (p.1 == t) = true
  · rw [if_pos hp]
  · rw [if_neg hp]

lemma getTable_setTableKey_of_any (m : IdMapping) (t : String) (k v : Val)
    (hany : m.any (fun p => p.1 == t) = true) :
    getTable (setTableKey m t k v) t = dictSet (getTable m t) k v := by
  unfold getTable setTableKey
  rw [find?_map_pred_preserve _ _ (setTableKey_key_preserved t t k v) m]
  cases hfind : m.find? (fun p => p.1 == t) with
  | none =>
    exfalso
    rcases List.any_eq_true.mp hany with ⟨x, hx, hqx⟩
    exact (List.find?_eq_none.mp hfind x hx) hqx
  | some p =>
    have hp : (p.1 == t) = true := by
      have h0 := List.find?_some hfind
      exact h0
    rw [Option.map_some', if_pos hp]

lemma getTable_setTableKey_ne (m : IdMapping) (t t' : String) (k v : Val) (h : t' ≠ t) :
    getTable (setTableKey m t k v) t' = getTable m t' := by
  unfold getTable setTableKey
  rw [find?_map_pred_preserve _ _ (setTableKey_key_preserved t t' k v) m]
  cases hfind : m.find? (fun p => p.1 == t') with
  | none => rfl
  | some p =>
    have hp' : (p.1 == t') = true := by
      have h0 := List.find?_some hfind
      exact h0
    have hpt : (p.1 == t) = false := by
      have : p.1 = t' := by simpa using hp'
      rw [this]
      exact beq_eq_false_iff_ne.mpr h
    rw [Option.map_some', if_neg (by simp [hpt])]

lemma getTable_recordMapping_self (m : IdMapping) (t : String) (k v : Val) :
    getTable (recordMapping m t k v) t = dictSet (getTable m t) k v := by
  unfold recordMapping
  rw [getTable_setTableKey_of_any _ _ _ _ (any_ensureTable m t), getTable_ensureTable_self]

/-- C7, counterexample to the claim as stated: recording `user001 ↦ 2` for
table `users` when `user001 ↦ 1` is already recorded does not fail — the
registry silently resolves to the new physical key `2` afterwards. -/
theorem c7_registry_duplicate_counterexample :
    resolveMapping
        (recordMapping (recordMapping [] "users" (Val.str "user001") (Val.int 1))
          "users" (Val.str "user001") (Val.int 2))
        "users" (Val.str "user001") = some (Val.int 2)
      ∧ Val.int 2 ≠ Val.int 1 :=
  ⟨rfl, by decide⟩

/-- C7 amended: the registry's record step (`id_mapping[table][mapping_value]
= record_id` in `_update_id_mapping`, after ensuring the table's dict) never
fails: it silently overwrites — a subsequent resolve of the same logical key
returns the newly recorded physical key, while every other (table, key)
lookup is unchanged.  There is no `DuplicateKeyError` in the code. -/
theorem c7_registry_record_overwrite (m : IdMapping) (t : String) (k v : Val) :
    resolveMapping (recordMapping m t k v) t k = some v ∧
    ∀ t' k', t' ≠ t ∨ k' ≠ k →
      resolveMapping (recordMapping m t k v) t' k' = resolveMapping m t' k' := by
  constructor
  · unfold resolveMapping
    rw [getTable_recordMapping_self]
    exact dictGet_dictSet_self _ _ _
  · intro t' k' hne
    by_cases ht : t' = t
    · subst ht
      have hk : k' ≠ k := hne.resolve_left (fun hc => hc rfl)
      unfold resolveMapping
      rw [getTable_recordMapping_self]
      exact dictGet_dictSet_ne _ _ _ _ hk
    · unfold resolveMapping recordMapping
      rw [getTable_setTableKey_ne _ _ _ _ _ ht, getTable_ensureTable_ne _ _ _ ht]

/-- Witness for C7's amended theorem at a concrete registry and key. -/
theorem c7_registry_record_overwrite_witness :
    resolveMapping (recordMapping [] "users" (Val.str "u") (Val.int 7)) "users" (Val.str "u")
        = some (Val.int 7) ∧
    ∀ t' k', t' ≠ "users" ∨ k' ≠ Val.str "u" →
      resolveMapping (recordMapping [] "users" (Val.str "u") (Val.int 7)) t' k'
        = resolveMapping [] t' k' :=
  c7_registry_record_overwrite [] "users" (Val.str "u") (Val.int 7)

/-! ## SQL statement texts (C8) -/

/-- The SQL statement texts `_insert_single_table_with_mapping` sends to the
cursor, in order: the INSERT template once per `executemany` batch, then —
when `mapping_key` is configured — the ID-lookup SELECT built by
`_update_id_mapping`. -/
def issuedSqlTexts (m : IdMapping) (cfg : MTConfig) : List String :=
  match processForeignKeys m cfg with
  | .error _ => []
  | .ok processed =>
    (chunks cfg.batch_size processed).map (fun _ => buildInsertSql cfg.table_name cfg.columns)
      ++ (match cfg.mapping_key with
          | some mk => [buildMappingQuerySql cfg.table_name mk cfg.id_field cfg.data_list]
          | none => [])

/-- Config used in the C8 counterexample: table `users` with a mapping key,
one data row whose first field is the logical key `a`. -/
def c8cfg1 : MTConfig :=
  { table_name := "users", columns := ["user_code", "name"],
    data_list := [[Val.str "a", Val.str "x"]], mapping_key := some "user_code" }

/-- Same table name and column list as `c8cfg1`, different row values. -/
def c8cfg2 : MTConfig :=
  { table_name := "users", columns := ["user_code", "name"],
    data_list := [[Val.str "b", Val.str "x"]], mapping_key := some "user_code" }

/-- C8, counterexample to the claim as stated: two runs over the same table
name and column list but different row values issue different SQL text —
`_update_id_mapping` interpolates the rows' key values directly into its
`WHERE ... IN ('...')` lookup query. -/
theorem c8_sql_text_counterexample :
    c8cfg1.table_name = c8cfg2.table_name ∧ c8cfg1.columns = c8cfg2.columns ∧
    issuedSqlTexts [] c8cfg1 ≠ issuedSqlTexts [] c8cfg2 := by
  refine ⟨rfl, rfl, ?_⟩
  decide

/-- C8 amended: every INSERT statement the core issues is the fixed
parameterized template built from the table name and column list alone
(hence independent of row values); the only other statement issued is the
ID-mapping lookup SELECT, which does interpolate the rows' first-column
values into its text. -/
theorem c8_issued_sql_shape (m : IdMapping) (cfg : MTConfig) :
    ∀ s ∈ issuedSqlTexts m cfg,
      s = buildInsertSql cfg.table_name cfg.columns ∨
      ∃ mk, cfg.mapping_key = some mk ∧
        s = buildMappingQuerySql cfg.table_name mk cfg.id_field cfg.data_list := by
  intro s hs
  unfold issuedSqlTexts at hs
  cases hpf : processForeignKeys m cfg with
  | error e => rw [hpf] at hs; simp at hs
  | ok processed =>
    rw [hpf] at hs
    rcases List.mem_append.mp hs with hmem | hmem
    · left
      rcases List.mem_map.mp hmem with ⟨b, _, hb⟩
      exact hb.symm
    · right
      cases hmk : cfg.mapping_key with
      | some mk =>
        rw [hmk] at hmem
        simp only [List.mem_singleton] at hmem
        exact ⟨mk, rfl, hmem⟩
      | none => rw [hmk] at hmem; simp at hmem

/-- Witness for C8's amended theorem: the single INSERT statement issued for
`c8cfg1` is the fixed template. -/
theorem c8_issued_sql_shape_witness :
    buildInsertSql "users" ["user_code", "name"]
        = buildInsertSql c8cfg1.table_name c8cfg1.columns ∨
      ∃ mk, c8cfg1.mapping_key = some mk ∧
        buildInsertSql "users" ["user_code", "name"]
          = buildMappingQuerySql c8cfg1.table_name mk c8cfg1.id_field c8cfg1.data_list :=
  c8_issued_sql_shape [] c8cfg1 (buildInsertSql "users" ["user_code", "name"]) (by decide)

/-! ## Foreign-key rewriter lemmas (C3) -/

/-- The per-cell effect of the `_process_foreign_keys` loop body: a declared
foreign-key column resolves its value through the registry, every other
column keeps its value. -/
def resolvedCell (m : IdMapping) (fks : List (String × String × String))
    (col : String) (v : Val) : Option Val :=
  match fkLookup fks col with
  | none => some v
  | some (refTable, _) => resolveMapping m refTable v

lemma processRow_ok_spec (fks : List (String × String × String)) (m : IdMapping) :
    ∀ (cols : List String) (row out : Row), processRow fks m cols row = .ok out →
      out.length = row.length ∧
      ∀ (k : Nat) col v, cols[k]? = some col → row[k]? = some v →
        out[k]? = resolvedCell m fks col v := by
  intro cols
  induction cols with
  | nil =>
    intro row out h
    simp only [processRow, Except.ok.injEq] at h
    subst h
    refine ⟨rfl, ?_⟩
    intro k col v hc _
    simp at hc
  | cons col cols ih =>
    intro row out h
    cases row with
    | nil =>
      cases hlk : fkLookup fks col with
      | none =>
        simp only [processRow, hlk] at h
        obtain ⟨hlen, _⟩ := ih [] out h
        refine ⟨hlen, ?_⟩
        intro k c v _ hv
        simp at hv
      | some p =>
        simp only [processRow, hlk] at h
        exact Except.noConfusion h
    | cons v vs =>
      cases hlk : fkLookup fks col with
      | none =>
        cases hrec : processRow fks m cols vs with
        | error e =>
          simp only [processRow, hlk, hrec] at h
          exact Except.noConfusion h
        | ok out' =>
          simp only [processRow, hlk, hrec, Except.ok.injEq] at h
          subst h
          obtain ⟨hlen, hcell⟩ := ih vs out' hrec
          refine ⟨by simp [hlen], ?_⟩
          intro k c w hc hw
          cases k with
          | zero =>
            simp only [List.getElem?_cons_zero, Option.some.injEq] at hc hw
            subst hc
            subst hw
            simp [resolvedCell, hlk]
          | succ k =>
            simp only [List.getElem?_cons_succ] at hc hw ⊢
            exact hcell k c w hc hw
      | some p =>
        obtain ⟨rt, rf⟩ := p
        cases hres : resolveMapping m rt v with
        | none =>
          simp only [processRow, hlk, hres] at h
          exact Except.noConfusion h
        | some actualId =>
          cases hrec : processRow fks m cols vs with
          | error e =>
            simp only [processRow, hlk, hres, hrec] at h
            exact Except.noConfusion h
          | ok out' =>
            simp only [processRow, hlk, hres, hrec, Except.ok.injEq] at h
            subst h
            obtain ⟨hlen, hcell⟩ := ih vs out' hrec
            refine ⟨by simp [hlen], ?_⟩
            intro k c w hc hw
            cases k with
            | zero =>
              simp only [List.getElem?_cons_zero, Option.some.injEq] at hc hw
              subst hc
              subst hw
              simp [resolvedCell, hlk, hres]
            | succ k =>
              simp only [List.getElem?_cons_succ] at hc hw ⊢
              exact hcell k c w hc hw

lemma processRow_ok_iff (fks : List (String × String × String)) (m : IdMapping) :
    ∀ (cols : List String) (row : Row), row.length = cols.length →
      ((∃ out, processRow fks m cols row = .ok out) ↔
        ∀ (k : Nat) col v, cols[k]? = some col → row[k]? = some v →
          (resolvedCell m fks col v).isSome = true) := by
  intro cols
  induction cols with
  | nil =>
    intro row hlen
    have : row = [] := List.eq_nil_of_length_eq_zero hlen
    subst this
    constructor
    · intro _ k col v hc _
      simp at hc
    · intro _
      exact ⟨[], rfl⟩
  | cons col cols ih =>
    intro row hlen
    cases row with
    | nil => simp at hlen
    | cons v vs =>
      have hlen' : vs.length = cols.length := by simpa using hlen
      cases hlk : fkLookup fks col with
      | none =>
        constructor
        · rintro ⟨out, hout⟩ k c w hc hw
          cases k with
          | zero =>
            simp only [List.getElem?_cons_zero, Option.some.injEq] at hc hw
            subst hc
            subst hw
            simp [resolvedCell, hlk]
          | succ k =>
            simp only [List.getElem?_cons_succ] at hc hw
            cases hrec : processRow fks m cols vs with
            | error e =>
              simp only [processRow, hlk, hrec] at hout
              exact Except.noConfusion hout
            | ok out' => exact ((ih vs hlen').mp ⟨out', hrec⟩) k c w hc hw
        · intro hcell
          have htail : ∀ (k : Nat) c w, cols[k]? = some c → vs[k]? = some w →
              (resolvedCell m fks c w).isSome = true := by
            intro k c w hc hw
            exact hcell (k + 1) c w (by simpa using hc) (by simpa using hw)
          obtain ⟨out', hout'⟩ := (ih vs hlen').mpr htail
          exact ⟨v :: out', by simp only [processRow, hlk, hout']⟩
      | some p =>
        obtain ⟨rt, rf⟩ := p
        cases hres : resolveMapping m rt v with
        | none =>
          constructor
          · rintro ⟨out, hout⟩
            simp only [processRow, hlk, hres] at hout
            exact Except.noConfusion hout
          · intro hcell
            exfalso
            have h0 := hcell 0 col v (by simp) (by simp)
            simp [resolvedCell, hlk, hres] at h0
        | some a =>
          constructor
          · rintro ⟨out, hout⟩ k c w hc hw
            cases k with
            | zero =>
              simp only [List.getElem?_cons_zero, Option.some.injEq] at hc hw
              subst hc
              subst hw
              simp [resolvedCell, hlk, hres]
            | succ k =>
              simp only [List.getElem?_cons_succ] at hc hw
              cases hrec : processRow fks m cols vs with
              | error e =>
                simp only [processRow, hlk, hres, hrec] at hout
                exact Except.noConfusion hout
              | ok out' => exact ((ih vs hlen').mp ⟨out', hrec⟩) k c w hc hw
          · intro hcell
            have htail : ∀ (k : Nat) c w, cols[k]? = some c → vs[k]? = some w →
                (resolvedCell m fks c w).isSome = true := by
              intro k c w hc hw
              exact hcell (k + 1) c w (by simpa using hc) (by simpa using hw)
            obtain ⟨out', hout'⟩ := (ih vs hlen').mpr htail
            exact ⟨a :: out', by simp only [processRow, hlk, hres, hout']⟩

lemma processRow_missing (fks : List (String × String × String)) (m : IdMapping) :
    ∀ (cols : List String) (row : Row) (rt : String) (key : Val),
      processRow fks m cols row = .error (.missing rt key) →
      resolveMapping m rt key = none := by
  intro cols
  induction cols with
  | nil =>
    intro row rt key h
    simp only [processRow] at h
    exact Except.noConfusion h
  | cons col cols ih =>
    intro row rt key h
    cases row with
    | nil =>
      cases hlk : fkLookup fks col with
      | none =>
        simp only [processRow, hlk] at h
        exact ih [] rt key h
      | some p =>
        simp only [processRow, hlk] at h
        have he := Except.error.inj h
        exact FkErr.noConfusion he
    | cons v vs =>
      cases hlk : fkLookup fks col with
      | none =>
        cases hrec : processRow fks m cols vs with
        | error e =>
          simp only [processRow, hlk, hrec] at h
          have he := Except.error.inj h
          exact ih vs rt key (by rw [hrec, he])
        | ok out' =>
          simp only [processRow, hlk, hrec] at h
          exact Except.noConfusion h
      | some p =>
        obtain ⟨rt', rf'⟩ := p
        cases hres : resolveMapping m rt' v with
        | none =>
          simp only [processRow, hlk, hres] at h
          have he := Except.error.inj h
          injection he with h1 h2
          subst h1
          subst h2
          exact hres
        | some a =>
          cases hrec : processRow fks m cols vs with
          | error e =>
            simp only [processRow, hlk, hres, hrec] at h
            have he := Except.error.inj h
            exact ih vs rt key (by rw [hrec, he])
          | ok out' =>
            simp only [processRow, hlk, hres, hrec] at h
            exact Except.noConfusion h

lemma processRows_ok_spec (fks : List (String × String × String)) (m : IdMapping)
    (cols : List String) :
    ∀ (rows out : List Row), processRows fks m cols rows = .ok out →
      out.length = rows.length ∧
      ∀ (i : Nat) r, rows[i]? = some r →
        ∃ orow, out[i]? = some orow ∧ processRow fks m cols r = .ok orow := by
  intro rows
  induction rows with
  | nil =>
    intro out h
    simp only [processRows, Except.ok.injEq] at h
    subst h
    refine ⟨rfl, ?_⟩
    intro i r hi
    simp at hi
  | cons row rest ih =>
    intro out h
    cases hrow : processRow fks m cols row with
    | error e =>
      simp only [processRows, hrow] at h
      exact Except.noConfusion h
    | ok newRow =>
      cases hrest : processRows fks m cols rest with
      | error e =>
        simp only [processRows, hrow, hrest] at h
        exact Except.noConfusion h
      | ok out' =>
        simp only [processRows, hrow, hrest, Except.ok.injEq] at h
        subst h
        obtain ⟨hlen, hcell⟩ := ih out' hrest
        refine ⟨by simp [hlen], ?_⟩
        intro i r hi
        cases i with
        | zero =>
          simp only [List.getElem?_cons_zero, Option.some.injEq] at hi
          subst hi
          exact ⟨newRow, by simp, hrow⟩
        | succ i =>
          simp only [List.getElem?_cons_succ] at hi ⊢
          exact hcell i r hi

lemma processRows_ok_iff (fks : List (String × String × String)) (m : IdMapping)
    (cols : List String) :
    ∀ rows : List Row, (∃ out, processRows fks m cols rows = .ok out) ↔
      ∀ r ∈ rows, ∃ o, processRow fks m cols r = .ok o := by
  intro rows
  induction rows with
  | nil =>
    constructor
    · intro _ r hr
      simp at hr
    · intro _
      exact ⟨[], rfl⟩
  | cons row rest ih =>
    constructor
    · rintro ⟨out, hout⟩ r hr
      cases hrow : processRow fks m cols row with
      | error e =>
        simp only [processRows, hrow] at hout
        exact Except.noConfusion hout
      | ok newRow =>
        cases hrest : processRows fks m cols rest with
        | error e =>
          simp only [processRows, hrow, hrest] at hout
          exact Except.noConfusion hout
        | ok out' =>
          rcases List.mem_cons.mp hr with h | h
          · subst h
            exact ⟨newRow, hrow⟩
          · exact (ih.mp ⟨out', hrest⟩) r h
    · intro hall
      obtain ⟨o, ho⟩ := hall row (List.mem_cons_self row rest)
      obtain ⟨out', hout'⟩ := ih.mpr (fun r hr => hall r (List.mem_cons_of_mem _ hr))
      exact ⟨o :: out', by simp only [processRows, ho, hout']⟩

lemma processRows_missing (fks : List (String × String × String)) (m : IdMapping)
    (cols : List String) :
    ∀ (rows : List Row) (rt : String) (key : Val),
      processRows fks m cols rows = .error (.missing rt key) →
      resolveMapping m rt key = none := by
  intro rows
  induction rows with
  | nil =>
    intro rt key h
    simp only [processRows] at h
    exact Except.noConfusion h
  | cons row rest ih =>
    intro rt key h
    cases hrow : processRow fks m cols row with
    | error e =>
      simp only [processRows, hrow] at h
      have he := Except.error.inj h
      exact processRow_missing fks m cols row rt key (by rw [hrow, he])
    | ok newRow =>
      cases hrest : processRows fks m cols rest with
      | error e =>
        simp only [processRows, hrow, hrest] at h
        have he := Except.error.inj h
        exact ih rt key (by rw [hrest, he])
      | ok out' =>
        simp only [processRows, hrow, hrest] at h
        exact Except.noConfusion h

/-- C3: the Foreign-Key Rewriter (`_process_foreign_keys`).  For rows whose
arity matches the column list: it succeeds exactly when every value in a
declared foreign-key column has a recorded mapping for its parent table; on
success it returns the rows with each declared foreign-key cell replaced by
the physical key the registry maps it to and every other cell unchanged
(`resolvedCell`); and a `missing` failure wraps a (parent table, logical
key) pair that indeed has no recorded mapping.  The embedded function is
pure: it returns fresh rows and leaves the registry argument and the
caller's row list untouched by construction. -/
theorem c3_foreign_key_rewriter (m : IdMapping) (cfg : MTConfig)
    (harity : ∀ r ∈ cfg.data_list, r.length = cfg.columns.length) :
    ((∃ out, processForeignKeys m cfg = .ok out) ↔
      ∀ r ∈ cfg.data_list, ∀ (k : Nat) col v,
        cfg.columns[k]? = some col → r[k]? = some v →
          (resolvedCell m cfg.foreign_keys col v).isSome = true) ∧
    (∀ out, processForeignKeys m cfg = .ok out →
      out.length = cfg.data_list.length ∧
      ∀ (i : Nat) r, cfg.data_list[i]? = some r →
        ∃ orow, out[i]? = some orow ∧ orow.length = r.length ∧
          ∀ (k : Nat) col v, cfg.columns[k]? = some col → r[k]? = some v →
            orow[k]? = resolvedCell m cfg.foreign_keys col v) ∧
    (∀ rt key, processForeignKeys m cfg = .error (.missing rt key) →
      resolveMapping m rt key = none) := by
  refine ⟨?_, ?_, ?_⟩
  · rw [processForeignKeys,
      processRows_ok_iff cfg.foreign_keys m cfg.columns cfg.data_list]
    constructor
    · intro hall r hr k col v hc hv
      obtain ⟨o, ho⟩ := hall r hr
      exact ((processRow_ok_iff cfg.foreign_keys m cfg.columns r (harity r hr)).mp
        ⟨o, ho⟩) k col v hc hv
    · intro hcells r hr
      exact (processRow_ok_iff cfg.foreign_keys m cfg.columns r (harity r hr)).mpr
        (hcells r hr)
  · intro out hout
    obtain ⟨hlen, hrow⟩ :=
      processRows_ok_spec cfg.foreign_keys m cfg.columns cfg.data_list out hout
    refine ⟨hlen, ?_⟩
    intro i r hi
    obtain ⟨orow, hor, hpr⟩ := hrow i r hi
    obtain ⟨holen, hcell⟩ :=
      processRow_ok_spec cfg.foreign_keys m cfg.columns r orow hpr
    exact ⟨orow, hor, holen, hcell⟩
  · intro rt key h
    exact processRows_missing cfg.foreign_keys m cfg.columns cfg.data_list rt key h

/-- Registry used in the C3 witness: `users` already mapped. -/
def c3m : IdMapping :=
  [("users", [(Val.str "user001", Val.int 1), (Val.str "user002", Val.int 2)])]

/-- Config used in the C3 witness: `orders` rows referencing `users` rows by
logical key through the `user_code` foreign-key column. -/
def c3cfg : MTConfig :=
  { table_name := "orders", columns := ["order_code", "user_code", "amount"],
    data_list := [[Val.str "order001", Val.str "user001", Val.int 299],
                  [Val.str "order002", Val.str "user002", Val.int 199]],
    mapping_key := some "order_code",
    foreign_keys := [("user_code", "users", "user_code")] }

/-- Witness for C3 at a concrete registry and table config. -/
theorem c3_foreign_key_rewriter_witness :
    ((∃ out, processForeignKeys c3m c3cfg = .ok out) ↔
      ∀ r ∈ c3cfg.data_list, ∀ (k : Nat) col v,
        c3cfg.columns[k]? = some col → r[k]? = some v →
          (resolvedCell c3m c3cfg.foreign_keys col v).isSome = true) ∧
    (∀ out, processForeignKeys c3m c3cfg = .ok out →
      out.length = c3cfg.data_list.length ∧
      ∀ (i : Nat) r, c3cfg.data_list[i]? = some r →
        ∃ orow, out[i]? = some orow ∧ orow.length = r.length ∧
          ∀ (k : Nat) col v, c3cfg.columns[k]? = some col → r[k]? = some v →
            orow[k]? = resolvedCell c3m c3cfg.foreign_keys col v) ∧
    (∀ rt key, processForeignKeys c3m c3cfg = .error (.missing rt key) →
      resolveMapping c3m rt key = none) :=
  c3_foreign_key_rewriter c3m c3cfg (by decide)

/-! ## Checkpoint/resume lemmas (C5, C6) -/

lemma checkpointLoop_snd (phys : String → Val → Val) :
    ∀ (l : List MTConfig) (n : Nat) (m : IdMapping),
      (checkpointLoop phys l n m).2 = runMapping phys l m := by
  intro l
  induction l with
  | nil => intro n m; rfl
  | cons cfg rest ih =>
    intro n m
    cases hins : insertSingleTableWithMapping phys m cfg with
    | error e => simp [checkpointLoop, runMapping, hins]
    | ok p =>
      obtain ⟨m', evs⟩ := p
      simp [checkpointLoop, runMapping, hins, ih]

lemma runMapping_append (phys : String → Val → Val) :
    ∀ (l₁ l₂ : List MTConfig) (m m₁ : IdMapping),
      runMapping phys l₁ m = .ok m₁ →
      runMapping phys (l₁ ++ l₂) m = runMapping phys l₂ m₁ := by
  intro l₁
  induction l₁ with
  | nil =>
    intro l₂ m m₁ h
    simp only [runMapping, Except.ok.injEq] at h
    subst h
    rfl
  | cons cfg rest ih =>
    intro l₂ m m₁ h
    cases hins : insertSingleTableWithMapping phys m cfg with
    | error e =>
      simp only [runMapping, hins] at h
      exact Except.noConfusion h
    | ok p =>
      obtain ⟨m', evs⟩ := p
      simp only [runMapping, hins] at h
      simp only [List.cons_append, runMapping, hins]
      exact ih l₂ m' m₁ h

lemma insertSingleTable_events (phys : String → Val → Val) (m : IdMapping)
    (cfg : MTConfig) (m' : IdMapping) (evs : List Ev)
    (h : insertSingleTableWithMapping phys m cfg = .ok (m', evs)) :
    ∀ e ∈ evs, (∃ b, e = Ev.execBatch cfg.table_name b) ∨
      e = Ev.mappingUpdate cfg.table_name := by
  intro e he
  cases hpf : processForeignKeys m cfg with
  | error err =>
    rw [insertSingleTableWithMapping, hpf] at h
    exact Except.noConfusion h
  | ok processed =>
    rw [insertSingleTableWithMapping, hpf] at h
    cases hmk : cfg.mapping_key with
    | some mk =>
      rw [hmk] at h
      simp only [Except.ok.injEq, Prod.mk.injEq] at h
      obtain ⟨-, hevs⟩ := h
      subst hevs
      rcases List.mem_append.mp he with hm | hm
      · obtain ⟨b, -, hb⟩ := List.mem_map.mp hm
        exact Or.inl ⟨b, hb.symm⟩
      · simp only [List.mem_singleton] at hm
        exact Or.inr hm
    | none =>
      rw [hmk] at h
      simp only [Except.ok.injEq, Prod.mk.injEq] at h
      obtain ⟨-, hevs⟩ := h
      subst hevs
      obtain ⟨b, -, hb⟩ := List.mem_map.mp he
      exact Or.inl ⟨b, hb.symm⟩

lemma checkpointLoop_exec_events (phys : String → Val → Val) :
    ∀ (l : List MTConfig) (n : Nat) (m : IdMapping) (t : String) (b : List Row),
      Ev.execBatch t b ∈ (checkpointLoop phys l n m).1 →
      t ∈ l.map (fun c => c.table_name) := by
  intro l
  induction l with
  | nil =>
    intro n m t b h
    simp [checkpointLoop] at h
  | cons cfg rest ih =>
    intro n m t b h
    cases hins : insertSingleTableWithMapping phys m cfg with
    | error e => simp [checkpointLoop, hins] at h
    | ok p =>
      obtain ⟨m', evs⟩ := p
      simp only [checkpointLoop, hins] at h
      rcases List.mem_append.mp h with hm | hm
      · rcases insertSingleTable_events phys m cfg m' evs hins _ hm with ⟨b', hb⟩ | hb
        · rw [List.map_cons]
          injection hb with ht _
          exact ht ▸ List.mem_cons_self _ _
        · exact Ev.noConfusion hb
      · rcases List.mem_cons.mp hm with hm' | hm'
        · exact Ev.noConfusion hm'
        · exact List.mem_cons_of_mem _ (ih (n + 1) m' t b hm')

/-- C5: resume idempotence of `batch_insert_with_checkpoint`.  If the loaded
checkpoint records `completed_tables = k + 1` with the registry a successful
run of tables `0..k` produced from an empty registry, then: resuming
processes exactly `configs.drop (k + 1)` — every batch-insert event is for a
table with index `≥ k + 1` — and the resumed run's final registry equals the
one of a from-scratch run over all tables, assuming the same deterministic
physical-key assignment `phys`. -/
theorem c5_resume_idempotence (phys : String → Val → Val) (configs : List MTConfig)
    (k : Nat) (mcp : IdMapping)
    (hcp : runMapping phys (configs.take (k + 1)) [] = .ok mcp) :
    runMapping phys (configs.drop (k + 1)) mcp = runMapping phys configs [] ∧
    (∀ t b, Ev.execBatch t b ∈
        (batchInsertWithCheckpoint phys configs ⟨k + 1, mcp⟩).1 →
      t ∈ (configs.drop (k + 1)).map (fun c => c.table_name)) ∧
    (batchInsertWithCheckpoint phys configs ⟨k + 1, mcp⟩).2
      = runMapping phys configs [] := by
  have hsplit : runMapping phys configs [] = runMapping phys (configs.drop (k + 1)) mcp := by
    conv_lhs => rw [← List.take_append_drop (k + 1) configs]
    exact runMapping_append phys _ _ [] mcp hcp
  rcases hcl : checkpointLoop phys (configs.drop (k + 1)) (k + 1) mcp with ⟨evs, res⟩
  have hres : res = runMapping phys (configs.drop (k + 1)) mcp := by
    have := checkpointLoop_snd phys (configs.drop (k + 1)) (k + 1) mcp
    rw [hcl] at this
    exact this
  refine ⟨hsplit.symm, ?_, ?_⟩
  · intro t b hmem
    simp only [batchInsertWithCheckpoint, hcl] at hmem
    have hevs : Ev.execBatch t b ∈ evs := by
      cases res with
      | ok m =>
        rcases List.mem_cons.mp hmem with h | h
        · exact Ev.noConfusion h
        · rcases List.mem_append.mp h with h' | h'
          · exact h'
          · rcases List.mem_cons.mp h' with h2 | h2
            · exact Ev.noConfusion h2
            · rcases List.mem_cons.mp h2 with h3 | h3
              · exact Ev.noConfusion h3
              · exact absurd h3 (List.not_mem_nil _)
      | error e =>
        rcases List.mem_cons.mp hmem with h | h
        · exact Ev.noConfusion h
        · rcases List.mem_append.mp h with h' | h'
          · exact h'
          · rcases List.mem_cons.mp h' with h2 | h2
            · exact Ev.noConfusion h2
            · exact absurd h2 (List.not_mem_nil _)
    have := checkpointLoop_exec_events phys (configs.drop (k + 1)) (k + 1) mcp t b
    rw [hcl] at this
    exact this hevs
  · simp only [batchInsertWithCheckpoint, hcl]
    cases res with
    | ok m => rw [hsplit, ← hres]
    | error e => rw [hsplit, ← hres]

/-- A concrete deterministic physical-key assignment used in witnesses: the
database hands back `id_<table>_<logical key>`. -/
def physEx : String → Val → Val := fun t v => Val.str ("id_" ++ t ++ "_" ++ valText v)

/-- Concrete `users` table config (one row, publishes its ID mapping). -/
def w5c1 : MTConfig :=
  { table_name := "users", columns := ["user_code", "name"],
    data_list := [[Val.str "u1", Val.str "alice"]], mapping_key := some "user_code" }

/-- Concrete `orders` table config referencing `users` by logical key. -/
def w5c2 : MTConfig :=
  { table_name := "orders", columns := ["order_code", "user_code"],
    data_list := [[Val.str "o1", Val.str "u1"]], mapping_key := some "order_code",
    foreign_keys := [("user_code", "users", "user_code")] }

/-- The registry state after `users` completed under `physEx`. -/
def w5mcp : IdMapping := [("users", [(Val.str "u1", Val.str "id_users_u1")])]

/-- Witness for C5: resuming `[users, orders]` from a checkpoint taken after
`users` completed replays only `orders` and ends in the same registry as a
from-scratch run. -/
theorem c5_resume_idempotence_witness :
    runMapping physEx ([w5c1, w5c2].drop 1) w5mcp = runMapping physEx [w5c1, w5c2] [] ∧
    (∀ t b, Ev.execBatch t b ∈
        (batchInsertWithCheckpoint physEx [w5c1, w5c2] ⟨1, w5mcp⟩).1 →
      t ∈ ([w5c1, w5c2].drop 1).map (fun c => c.table_name)) ∧
    (batchInsertWithCheckpoint physEx [w5c1, w5c2] ⟨1, w5mcp⟩).2
      = runMapping physEx [w5c1, w5c2] [] :=
  c5_resume_idempotence physEx [w5c1, w5c2] 0 w5mcp rfl

/-- Checker: some checkpoint is persisted before the first `commit` of the
trace (the claim of C6 says this must never happen). -/
def checkpointBeforeCommit (tr : List Ev) : Bool :=
  (tr.takeWhile (fun e => !(e == Ev.commit))).any
    (fun e => match e with
      | Ev.saveCheckpoint _ => true
      | _ => false)

/-- Checker: some registry update happens before the first `commit`. -/
def mappingBeforeCommit (tr : List Ev) : Bool :=
  (tr.takeWhile (fun e => !(e == Ev.commit))).any
    (fun e => match e with
      | Ev.mappingUpdate _ => true
      | _ => false)

/-- C6, evaluated at the failing input (a single `users` table, fresh
checkpoint): `batch_insert_with_checkpoint` opens one transaction around the
whole loop, updates the registry and persists a checkpoint counting table 0
as completed strictly before the single commit — so the checkpoint records
as completed a table whose rows are not yet committed, contradicting the
claim. -/
theorem c6_checkpoint_persisted_before_commit :
    batchInsertWithCheckpoint physEx [w5c1] ⟨0, []⟩
      = ([Ev.beginTx, Ev.execBatch "users" [[Val.str "u1", Val.str "alice"]],
          Ev.mappingUpdate "users", Ev.saveCheckpoint 1, Ev.commit, Ev.removeCheckpoint],
         .ok [("users", [(Val.str "u1", Val.str "id_users_u1")])]) ∧
    checkpointBeforeCommit (batchInsertWithCheckpoint physEx [w5c1] ⟨0, []⟩).1 = true ∧
    mappingBeforeCommit (batchInsertWithCheckpoint physEx [w5c1] ⟨0, []⟩).1 = true :=
  ⟨rfl, rfl, rfl⟩

/-! ## Dependency resolver lemmas (C1, C2, C9, C10) -/

/-- Table configs declaring mutual dependency on each other (C2 input). -/
def c2cfgA : TableConfig :=
  { table_name := "a", columns := [], data := [], dependencies := ["b"] }

/-- Counterpart of `c2cfgA` in the two-cycle. -/
def c2cfgB : TableConfig :=
  { table_name := "b", columns := [], data := [], dependencies := ["a"] }

/-- C2, evaluated at the failing input: on the cyclic configuration
`a depends on b, b depends on a` the resolver returns an order (`[b, a]`)
instead of failing — the `visited` set silently breaks the cycle, there is
no cycle detection and no `DependencyCycleError` anywhere in the code. -/
theorem c2_cycle_returns_order :
    orderTableConfigsByDependency [c2cfgA, c2cfgB] = .ok [c2cfgB, c2cfgA] := rfl

/-- The table names of the supplied configs, in input order (the iteration
order of the `dependencies` dict keys when names are unique). -/
def configNames (configs : List TableConfig) : List String :=
  configs.map (fun c => c.table_name)

/-- Every name the DFS can ever visit: config names and declared parents. -/
def namePool (configs : List TableConfig) : List String :=
  configNames configs ++ allDeps configs

/-- The names a `dfsStep` input refers to. -/
def inpNames (inp : String ⊕ List String) : List String :=
  match inp with
  | .inl n => [n]
  | .inr ds => ds

/-- Fuel demand of a `dfsStep` call: enough for every still-unvisited name
to be processed, each descending through one dependency list. -/
def fuelNeed (configs : List TableConfig) (inp : String ⊕ List String)
    (visited : List String) : Nat :=
  ((namePool configs).length - visited.length) * ((allDeps configs).length + 1) +
    (match inp with
     | .inl _ => 0
     | .inr ds => ds.length) + 1

/-- Invariant tying the visited set to the ghost DFS stack `stk`: every
visited name is still on the stack, or has been fully processed — it names
a config whose dependency list has been entirely visited. -/
def GoodVisited (configs : List TableConfig) (visited stk : List String) : Prop :=
  ∀ n ∈ visited, n ∈ stk ∨
    (n ∈ configNames configs ∧ ∀ d ∈ depsOf configs n, d ∈ visited)

lemma length_le_of_nodup_subset (l₁ l₂ : List String) (h : l₁.Nodup)
    (hsub : ∀ x ∈ l₁, x ∈ l₂) : l₁.length ≤ l₂.length := by
  have h1 : l₁.toFinset.card = l₁.length := List.toFinset_card_of_nodup h
  have h2 : l₁.toFinset ⊆ l₂.toFinset := fun x hx =>
    List.mem_toFinset.mpr (hsub x (List.mem_toFinset.mp hx))
  calc l₁.length = l₁.toFinset.card := h1.symm
    _ ≤ l₂.toFinset.card := Finset.card_le_card h2
    _ ≤ l₂.length := List.toFinset_card_le l₂

lemma depsOf_subset_allDeps (configs : List TableConfig) (name : String) :
    ∀ d ∈ depsOf configs name, d ∈ allDeps configs := by
  intro d hd
  unfold depsOf at hd
  cases hfind : configs.find? (fun c => c.table_name == name) with
  | none => rw [hfind] at hd; simp at hd
  | some c =>
    rw [hfind] at hd
    have hc : c ∈ configs := List.mem_of_find?_eq_some hfind
    exact List.mem_flatten.mpr ⟨c.dependencies, List.mem_map_of_mem _ hc, hd⟩

lemma depsOf_length_le (configs : List TableConfig) (name : String) :
    (depsOf configs name).length ≤ (allDeps configs).length := by
  unfold depsOf
  cases hfind : configs.find? (fun c => c.table_name == name) with
  | none => simp
  | some c =>
    have hc : c ∈ configs := List.mem_of_find?_eq_some hfind
    show c.dependencies.length ≤ (allDeps configs).length
    unfold allDeps
    exact (List.sublist_flatten_of_mem
      (List.mem_map_of_mem (fun c => c.dependencies) hc)).length_le

lemma find?_name_mem_configNames (configs : List TableConfig) (name : String)
    (c : TableConfig) (hfind : configs.find? (fun c => c.table_name == name) = some c) :
    c.table_name = name ∧ name ∈ configNames configs := by
  have hc : c ∈ configs := List.mem_of_find?_eq_some hfind
  have hn : c.table_name = name := by
    have h0 := List.find?_some hfind
    simpa using h0
  exact ⟨hn, hn ▸ List.mem_map_of_mem _ hc⟩

/-- Post-conditions of a successful `dfsStep` call: the visited set only
grows inside the name pool, the input's names end up visited, growth is
bounded by the input's names and the declared parents, the order grows by an
appended suffix of configs, the visited set stays in bijection with the
emitted order plus the ghost stack, and the `GoodVisited` invariant holds. -/
def DfsOkPost (configs : List TableConfig) (inp : String ⊕ List String)
    (visited : List String) (order : List TableConfig) (stk : List String)
    (visited' : List String) (order' : List TableConfig) : Prop :=
  (∀ n ∈ visited, n ∈ visited') ∧
  visited'.Nodup ∧
  (∀ n ∈ visited', n ∈ namePool configs) ∧
  (∀ n ∈ inpNames inp, n ∈ visited') ∧
  (∀ n ∈ visited', n ∈ inpNames inp ∨ n ∈ visited ∨ n ∈ allDeps configs) ∧
  (∃ newCfgs, order' = order ++ newCfgs ∧ ∀ c ∈ newCfgs, c ∈ configs) ∧
  visited'.Perm (order'.map (fun c => c.table_name) ++ stk) ∧
  GoodVisited configs visited' stk

/-- Main invariant of the embedded DFS: with enough fuel it never exhausts
the fuel, and every successful call satisfies `DfsOkPost`. -/
lemma dfsStep_invariant (configs : List TableConfig) :
    ∀ (fuel : Nat) (inp : String ⊕ List String) (visited : List String)
      (order : List TableConfig) (stk : List String),
      (∀ n ∈ inpNames inp, n ∈ namePool configs) →
      visited.Nodup →
      (∀ n ∈ visited, n ∈ namePool configs) →
      fuelNeed configs inp visited ≤ fuel →
      visited.Perm (order.map (fun c => c.table_name) ++ stk) →
      GoodVisited configs visited stk →
      dfsStep configs fuel inp visited order ≠ .error .fuelOut ∧
      ∀ visited' order', dfsStep configs fuel inp visited order = .ok (visited', order') →
        DfsOkPost configs inp visited order stk visited' order' := by
  intro fuel
  induction fuel with
  | zero =>
    intro inp visited order stk hin hnd hvp hfuel hperm hgood
    exfalso
    cases inp <;> simp only [fuelNeed] at hfuel <;> omega
  | succ fuel ih =>
    intro inp visited order stk hin hnd hvp hfuel hperm hgood
    cases inp with
    | inl name =>
      have hnamePool : name ∈ namePool configs := hin name (by simp [inpNames])
      by_cases hv : name ∈ visited
      · constructor
        · intro hcontra
          simp only [dfsStep, if_pos hv] at hcontra
          exact Except.noConfusion hcontra
        · intro v' o' h
          simp only [dfsStep, if_pos hv, Except.ok.injEq, Prod.mk.injEq] at h
          obtain ⟨h1, h2⟩ := h
          subst h1
          subst h2
          refine ⟨fun n hn => hn, hnd, hvp, ?_, ?_, ⟨[], by simp, by simp⟩, hperm, hgood⟩
          · intro n hn
            simp only [inpNames, List.mem_singleton] at hn
            subst hn
            exact hv
          · intro n hn
            exact Or.inr (Or.inl hn)
      · -- `name` is processed: the deps loop runs on `name :: visited`.
        have hdspool : ∀ n ∈ inpNames (Sum.inr (depsOf configs name) : String ⊕ List String),
            n ∈ namePool configs := by
          intro n hn
          simp only [inpNames] at hn
          exact List.mem_append.mpr (Or.inr (depsOf_subset_allDeps configs name n hn))
        have hnd' : (name :: visited).Nodup := List.nodup_cons.mpr ⟨hv, hnd⟩
        have hvp' : ∀ n ∈ name :: visited, n ∈ namePool configs := by
          intro n hn
          rcases List.mem_cons.mp hn with h | h
          · exact h ▸ hnamePool
          · exact hvp n h
        have hlenlt : visited.length + 1 ≤ (namePool configs).length := by
          have h0 := length_le_of_nodup_subset (name :: visited) (namePool configs) hnd' hvp'
          simpa using h0
        have hfuel' : fuelNeed configs (Sum.inr (depsOf configs name)) (name :: visited) ≤ fuel := by
          have hdl : (depsOf configs name).length ≤ (allDeps configs).length :=
            depsOf_length_le configs name
          simp only [fuelNeed, List.length_cons] at hfuel ⊢
          obtain ⟨j, hj⟩ : ∃ j, (namePool configs).length - visited.length = j + 1 :=
            ⟨(namePool configs).length - visited.length - 1, by omega⟩
          have hj' : (namePool configs).length - (visited.length + 1) = j := by omega
          rw [hj, Nat.succ_mul] at hfuel
          rw [hj']
          omega
        have hperm' : (name :: visited).Perm
            (order.map (fun c => c.table_name) ++ name :: stk) :=
          (hperm.cons name).trans List.perm_middle.symm
        have hgood' : GoodVisited configs (name :: visited) (name :: stk) := by
          intro n hn
          rcases List.mem_cons.mp hn with h | h
          · exact Or.inl (h ▸ List.mem_cons_self _ _)
          · rcases hgood n h with hs | ⟨hc, hd⟩
            · exact Or.inl (List.mem_cons_of_mem _ hs)
            · exact Or.inr ⟨hc, fun d hdm => List.mem_cons_of_mem _ (hd d hdm)⟩
        obtain ⟨hnf, hok⟩ := ih (Sum.inr (depsOf configs name)) (name :: visited) order
          (name :: stk) hdspool hnd' hvp' hfuel' hperm' hgood'
        cases hrec : dfsStep configs fuel (Sum.inr (depsOf configs name)) (name :: visited) order with
        | error e =>
          constructor
          · intro hcontra
            simp only [dfsStep, if_neg hv, hrec] at hcontra
            have he := Except.error.inj hcontra
            exact hnf (by rw [hrec, he])
          · intro v' o' h
            simp only [dfsStep, if_neg hv, hrec] at h
            exact Except.noConfusion h
        | ok p =>
          obtain ⟨v₁, o₁⟩ := p
          obtain ⟨hmono, hnd₁, hvp₁, hinv₁, hbound₁, ⟨Δ₁, hΔ₁, hΔ₁mem⟩, hperm₁, hgood₁⟩ :=
            hok v₁ o₁ hrec
          cases hfind : configs.find? (fun c => c.table_name == name) with
          | none =>
            constructor
            · intro hcontra
              simp only [dfsStep, if_neg hv, hrec, hfind] at hcontra
              have he := Except.error.inj hcontra
              exact DfsErr.noConfusion he
            · intro v' o' h
              simp only [dfsStep, if_neg hv, hrec, hfind] at h
              exact Except.noConfusion h
          | some c =>
            obtain ⟨hcname, hcmemnames⟩ := find?_name_mem_configNames configs name c hfind
            have hcmem : c ∈ configs := List.mem_of_find?_eq_some hfind
            constructor
            · intro hcontra
              simp only [dfsStep, if_neg hv, hrec, hfind] at hcontra
              exact Except.noConfusion hcontra
            · intro v' o' h
              simp only [dfsStep, if_neg hv, hrec, hfind, Except.ok.injEq, Prod.mk.injEq] at h
              obtain ⟨h1, h2⟩ := h
              subst h1
              subst h2
              have hnamein : name ∈ v₁ := hmono name (List.mem_cons_self _ _)
              refine ⟨?_, hnd₁, hvp₁, ?_, ?_, ?_, ?_, ?_⟩
              · intro n hn
                exact hmono n (List.mem_cons_of_mem _ hn)
              · intro n hn
                simp only [inpNames, List.mem_singleton] at hn
                subst hn
                exact hnamein
              · intro n hn
                rcases hbound₁ n hn with hd | hrest
                · simp only [inpNames] at hd
                  exact Or.inr (Or.inr (depsOf_subset_allDeps configs name n hd))
                · rcases hrest with hcons | hA
                  · rcases List.mem_cons.mp hcons with h | h
                    · exact Or.inl (by simp [inpNames, h])
                    · exact Or.inr (Or.inl h)
                  · exact Or.inr (Or.inr hA)
              · exact ⟨Δ₁ ++ [c], by rw [hΔ₁, List.append_assoc], by
                  intro x hx
                  rcases List.mem_append.mp hx with h | h
                  · exact hΔ₁mem x h
                  · simp only [List.mem_singleton] at h
                    exact h ▸ hcmem⟩
              · have heq : (o₁ ++ [c]).map (fun c => c.table_name) ++ stk
                    = o₁.map (fun c => c.table_name) ++ name :: stk := by
                  simp [hcname, List.append_assoc]
                rw [heq]
                exact hperm₁
              · intro n hn
                rcases hgood₁ n hn with hs | ⟨hc', hd'⟩
                · rcases List.mem_cons.mp hs with h | h
                  · subst h
                    refine Or.inr ⟨hcmemnames, ?_⟩
                    intro d hdm
                    exact hinv₁ d (by simpa [inpNames] using hdm)
                  · exact Or.inl h
                · exact Or.inr ⟨hc', hd'⟩
    | inr ds =>
      cases ds with
      | nil =>
        constructor
        · intro hcontra
          simp only [dfsStep] at hcontra
          exact Except.noConfusion hcontra
        · intro v' o' h
          simp only [dfsStep, Except.ok.injEq, Prod.mk.injEq] at h
          obtain ⟨h1, h2⟩ := h
          subst h1
          subst h2
          refine ⟨fun n hn => hn, hnd, hvp, ?_, ?_, ⟨[], by simp, by simp⟩, hperm, hgood⟩
          · intro n hn
            simp [inpNames] at hn
          · intro n hn
            exact Or.inr (Or.inl hn)
      | cons d ds =>
        have hdpool : ∀ n ∈ inpNames (Sum.inl d : String ⊕ List String), n ∈ namePool configs := by
          intro n hn
          simp only [inpNames, List.mem_singleton] at hn
          rw [hn]
          exact hin d (List.mem_cons_self _ _)
        have hfuel₁ : fuelNeed configs (Sum.inl d) visited ≤ fuel := by
          simp only [fuelNeed, List.length_cons] at hfuel ⊢
          omega
        obtain ⟨hnf₁, hok₁⟩ := ih (Sum.inl d) visited order stk hdpool hnd hvp hfuel₁ hperm hgood
        cases hrec₁ : dfsStep configs fuel (Sum.inl d) visited order with
        | error e =>
          constructor
          · intro hcontra
            simp only [dfsStep, hrec₁] at hcontra
            have he := Except.error.inj hcontra
            exact hnf₁ (by rw [hrec₁, he])
          · intro v' o' h
            simp only [dfsStep, hrec₁] at h
            exact Except.noConfusion h
        | ok p =>
          obtain ⟨v₁, o₁⟩ := p
          obtain ⟨hmono₁, hnd₁, hvp₁, hinv₁, hbound₁, ⟨Δ₁, hΔ₁, hΔ₁mem⟩, hperm₁, hgood₁⟩ :=
            hok₁ v₁ o₁ hrec₁
          have hdspool : ∀ n ∈ inpNames (Sum.inr ds : String ⊕ List String), n ∈ namePool configs := by
            intro n hn
            simp only [inpNames] at hn
            exact hin n (List.mem_cons_of_mem _ hn)
          have hlen₁ : visited.length ≤ v₁.length :=
            length_le_of_nodup_subset visited v₁ hnd hmono₁
          have hfuel₂ : fuelNeed configs (Sum.inr ds) v₁ ≤ fuel := by
            simp only [fuelNeed, List.length_cons] at hfuel ⊢
            have hmul : ((namePool configs).length - v₁.length) * ((allDeps configs).length + 1)
                ≤ ((namePool configs).length - visited.length) * ((allDeps configs).length + 1) :=
              Nat.mul_le_mul_right _ (by omega)
            omega
          obtain ⟨hnf₂, hok₂⟩ := ih (Sum.inr ds) v₁ o₁ stk hdspool hnd₁ hvp₁ hfuel₂ hperm₁ hgood₁
          cases hrec₂ : dfsStep configs fuel (Sum.inr ds) v₁ o₁ with
          | error e =>
            constructor
            · intro hcontra
              simp only [dfsStep, hrec₁, hrec₂] at hcontra
              have he := Except.error.inj hcontra
              exact hnf₂ (by rw [hrec₂, he])
            · intro v' o' h
              simp only [dfsStep, hrec₁, hrec₂] at h
              exact Except.noConfusion h
          | ok q =>
            obtain ⟨v₂, o₂⟩ := q
            obtain ⟨hmono₂, hnd₂, hvp₂, hinv₂, hbound₂, ⟨Δ₂, hΔ₂, hΔ₂mem⟩, hperm₂, hgood₂⟩ :=
              hok₂ v₂ o₂ hrec₂
            constructor
            · intro hcontra
              simp only [dfsStep, hrec₁, hrec₂] at hcontra
              exact Except.noConfusion hcontra
            · intro v' o' h
              simp only [dfsStep, hrec₁, hrec₂, Except.ok.injEq, Prod.mk.injEq] at h
              obtain ⟨h1, h2⟩ := h
              subst h1
              subst h2
              refine ⟨?_, hnd₂, hvp₂, ?_, ?_, ?_, hperm₂, hgood₂⟩
              · intro n hn
                exact hmono₂ n (hmono₁ n hn)
              · intro n hn
                rcases List.mem_cons.mp hn with h | h
                · exact hmono₂ n (hinv₁ n (by simp [inpNames, h]))
                · exact hinv₂ n (by simpa [inpNames] using h)
              · intro n hn
                rcases hbound₂ n hn with hd | hrest
                · simp only [inpNames] at hd
                  exact Or.inl (by simp [inpNames, List.mem_cons_of_mem _ hd])
                · rcases hrest with hv₁m | hA
                  · rcases hbound₁ n hv₁m with hd' | hrest'
                    · simp only [inpNames, List.mem_singleton] at hd'
                      exact Or.inl (by simp [inpNames, hd'])
                    · rcases hrest' with hvm | hA'
                      · exact Or.inr (Or.inl hvm)
                      · exact Or.inr (Or.inr hA')
                  · exact Or.inr (Or.inr hA)
              · exact ⟨Δ₁ ++ Δ₂, by rw [hΔ₂, hΔ₁, List.append_assoc], by
                  intro x hx
                  rcases List.mem_append.mp hx with h | h
                  · exact hΔ₁mem x h
                  · exact hΔ₂mem x h⟩

/-- The `DfsOkPost` bundle needs no fuel bound: a successful result already
certifies that the fuel never ran out along the way. -/
lemma dfsStep_ok_post (configs : List TableConfig) :
    ∀ (fuel : Nat) (inp : String ⊕ List String) (visited : List String)
      (order : List TableConfig) (stk : List String),
      (∀ n ∈ inpNames inp, n ∈ namePool configs) →
      visited.Nodup →
      (∀ n ∈ visited, n ∈ namePool configs) →
      visited.Perm (order.map (fun c => c.table_name) ++ stk) →
      GoodVisited configs visited stk →
      ∀ visited' order', dfsStep configs fuel inp visited order = .ok (visited', order') →
        DfsOkPost configs inp visited order stk visited' order' := by
  intro fuel
  induction fuel with
  | zero =>
    intro inp visited order stk _ _ _ _ _ v' o' h
    exact Except.noConfusion h
  | succ fuel ih =>
    intro inp visited order stk hin hnd hvp hperm hgood v' o' h
    cases inp with
    | inl name =>
      have hnamePool : name ∈ namePool configs := hin name (by simp [inpNames])
      by_cases hv : name ∈ visited
      · simp only [dfsStep, if_pos hv, Except.ok.injEq, Prod.mk.injEq] at h
        obtain ⟨h1, h2⟩ := h
        subst h1
        subst h2
        refine ⟨fun n hn => hn, hnd, hvp, ?_, ?_, ⟨[], by simp, by simp⟩, hperm, hgood⟩
        · intro n hn
          simp only [inpNames, List.mem_singleton] at hn
          subst hn
          exact hv
        · intro n hn
          exact Or.inr (Or.inl hn)
      · have hdspool : ∀ n ∈ inpNames (Sum.inr (depsOf configs name) : String ⊕ List String),
            n ∈ namePool configs := by
          intro n hn
          simp only [inpNames] at hn
          exact List.mem_append.mpr (Or.inr (depsOf_subset_allDeps configs name n hn))
        have hnd' : (name :: visited).Nodup := List.nodup_cons.mpr ⟨hv, hnd⟩
        have hvp' : ∀ n ∈ name :: visited, n ∈ namePool configs := by
          intro n hn
          rcases List.mem_cons.mp hn with h' | h'
          · exact h' ▸ hnamePool
          · exact hvp n h'
        have hperm' : (name :: visited).Perm
            (order.map (fun c => c.table_name) ++ name :: stk) :=
          (hperm.cons name).trans List.perm_middle.symm
        have hgood' : GoodVisited configs (name :: visited) (name :: stk) := by
          intro n hn
          rcases List.mem_cons.mp hn with h' | h'
          · exact Or.inl (h' ▸ List.mem_cons_self _ _)
          · rcases hgood n h' with hs | ⟨hc, hd⟩
            · exact Or.inl (List.mem_cons_of_mem _ hs)
            · exact Or.inr ⟨hc, fun d hdm => List.mem_cons_of_mem _ (hd d hdm)⟩
        cases hrec : dfsStep configs fuel (Sum.inr (depsOf configs name)) (name :: visited) order with
        | error e =>
          simp only [dfsStep, if_neg hv, hrec] at h
          exact Except.noConfusion h
        | ok p =>
          obtain ⟨v₁, o₁⟩ := p
          obtain ⟨hmono, hnd₁, hvp₁, hinv₁, hbound₁, ⟨Δ₁, hΔ₁, hΔ₁mem⟩, hperm₁, hgood₁⟩ :=
            ih (Sum.inr (depsOf configs name)) (name :: visited) order (name :: stk)
              hdspool hnd' hvp' hperm' hgood' v₁ o₁ hrec
          cases hfind : configs.find? (fun c => c.table_name == name) with
          | none =>
            simp only [dfsStep, if_neg hv, hrec, hfind] at h
            exact Except.noConfusion h
          | some c =>
            obtain ⟨hcname, hcmemnames⟩ := find?_name_mem_configNames configs name c hfind
            have hcmem : c ∈ configs := List.mem_of_find?_eq_some hfind
            simp only [dfsStep, if_neg hv, hrec, hfind, Except.ok.injEq, Prod.mk.injEq] at h
            obtain ⟨h1, h2⟩ := h
            subst h1
            subst h2
            have hnamein : name ∈ v₁ := hmono name (List.mem_cons_self _ _)
            refine ⟨?_, hnd₁, hvp₁, ?_, ?_, ?_, ?_, ?_⟩
            · intro n hn
              exact hmono n (List.mem_cons_of_mem _ hn)
            · intro n hn
              simp only [inpNames, List.mem_singleton] at hn
              subst hn
              exact hnamein
            · intro n hn
              rcases hbound₁ n hn with hd | hrest
              · simp only [inpNames] at hd
                exact Or.inr (Or.inr (depsOf_subset_allDeps configs name n hd))
              · rcases hrest with hcons | hA
                · rcases List.mem_cons.mp hcons with h' | h'
                  · exact Or.inl (by simp [inpNames, h'])
                  · exact Or.inr (Or.inl h')
                · exact Or.inr (Or.inr hA)
            · exact ⟨Δ₁ ++ [c], by rw [hΔ₁, List.append_assoc], by
                intro x hx
                rcases List.mem_append.mp hx with h' | h'
                · exact hΔ₁mem x h'
                · simp only [List.mem_singleton] at h'
                  exact h' ▸ hcmem⟩
            · have heq : (o₁ ++ [c]).map (fun c => c.table_name) ++ stk
                  = o₁.map (fun c => c.table_name) ++ name :: stk := by
                simp [hcname, List.append_assoc]
              rw [heq]
              exact hperm₁
            · intro n hn
              rcases hgood₁ n hn with hs | ⟨hc', hd'⟩
              · rcases List.mem_cons.mp hs with h' | h'
                · subst h'
                  refine Or.inr ⟨hcmemnames, ?_⟩
                  intro d hdm
                  exact hinv₁ d (by simpa [inpNames] using hdm)
                · exact Or.inl h'
              · exact Or.inr ⟨hc', hd'⟩
    | inr ds =>
      cases ds with
      | nil =>
        simp only [dfsStep, Except.ok.injEq, Prod.mk.injEq] at h
        obtain ⟨h1, h2⟩ := h
        subst h1
        subst h2
        refine ⟨fun n hn => hn, hnd, hvp, ?_, ?_, ⟨[], by simp, by simp⟩, hperm, hgood⟩
        · intro n hn
          simp [inpNames] at hn
        · intro n hn
          exact Or.inr (Or.inl hn)
      | cons d ds =>
        have hdpool : ∀ n ∈ inpNames (Sum.inl d : String ⊕ List String), n ∈ namePool configs := by
          intro n hn
          simp only [inpNames, List.mem_singleton] at hn
          rw [hn]
          exact hin d (List.mem_cons_self _ _)
        cases hrec₁ : dfsStep configs fuel (Sum.inl d) visited order with
        | error e =>
          simp only [dfsStep, hrec₁] at h
          exact Except.noConfusion h
        | ok p =>
          obtain ⟨v₁, o₁⟩ := p
          obtain ⟨hmono₁, hnd₁, hvp₁, hinv₁, hbound₁, ⟨Δ₁, hΔ₁, hΔ₁mem⟩, hperm₁, hgood₁⟩ :=
            ih (Sum.inl d) visited order stk hdpool hnd hvp hperm hgood v₁ o₁ hrec₁
          have hdspool : ∀ n ∈ inpNames (Sum.inr ds : String ⊕ List String),
              n ∈ namePool configs := by
            intro n hn
            simp only [inpNames] at hn
            exact hin n (List.mem_cons_of_mem _ hn)
          cases hrec₂ : dfsStep configs fuel (Sum.inr ds) v₁ o₁ with
          | error e =>
            simp only [dfsStep, hrec₁, hrec₂] at h
            exact Except.noConfusion h
          | ok q =>
            obtain ⟨v₂, o₂⟩ := q
            obtain ⟨hmono₂, hnd₂, hvp₂, hinv₂, hbound₂, ⟨Δ₂, hΔ₂, hΔ₂mem⟩, hperm₂, hgood₂⟩ :=
              ih (Sum.inr ds) v₁ o₁ stk hdspool hnd₁ hvp₁ hperm₁ hgood₁ v₂ o₂ hrec₂
            simp only [dfsStep, hrec₁, hrec₂, Except.ok.injEq, Prod.mk.injEq] at h
            obtain ⟨h1, h2⟩ := h
            subst h1
            subst h2
            refine ⟨?_, hnd₂, hvp₂, ?_, ?_, ?_, hperm₂, hgood₂⟩
            · intro n hn
              exact hmono₂ n (hmono₁ n hn)
            · intro n hn
              rcases List.mem_cons.mp hn with h' | h'
              · exact hmono₂ n (hinv₁ n (by simp [inpNames, h']))
              · exact hinv₂ n (by simpa [inpNames] using h')
            · intro n hn
              rcases hbound₂ n hn with hd | hrest
              · simp only [inpNames] at hd
                exact Or.inl (by simp [inpNames, List.mem_cons_of_mem _ hd])
              · rcases hrest with hv₁m | hA
                · rcases hbound₁ n hv₁m with hd' | hrest'
                  · simp only [inpNames, List.mem_singleton] at hd'
                    exact Or.inl (by simp [inpNames, hd'])
                  · rcases hrest' with hvm | hA'
                    · exact Or.inr (Or.inl hvm)
                    · exact Or.inr (Or.inr hA')
                · exact Or.inr (Or.inr hA)
            · exact ⟨Δ₁ ++ Δ₂, by rw [hΔ₂, hΔ₁, List.append_assoc], by
                intro x hx
                rcases List.mem_append.mp hx with h' | h'
                · exact hΔ₁mem x h'
                · exact hΔ₂mem x h'⟩

/-- Closedness of a configuration set: every declared parent table is itself
one of the supplied configs. -/
def ClosedDeps (configs : List TableConfig) : Prop :=
  ∀ c ∈ configs, ∀ d ∈ c.dependencies, d ∈ configNames configs

lemma allDeps_subset_configNames (configs : List TableConfig) (h : ClosedDeps configs) :
    ∀ d ∈ allDeps configs, d ∈ configNames configs := by
  intro d hd
  rcases List.mem_flatten.mp hd with ⟨l, hl, hdl⟩
  rcases List.mem_map.mp hl with ⟨c, hc, hlc⟩
  exact h c hc d (by rw [hlc]; exact hdl)

lemma find?_isSome_of_mem_configNames (configs : List TableConfig) (name : String)
    (h : name ∈ configNames configs) :
    ∃ c, configs.find? (fun c => c.table_name == name) = some c := by
  rcases List.mem_map.mp h with ⟨c, hc, hname⟩
  cases hfind : configs.find? (fun c => c.table_name == name) with
  | some c' => exact ⟨c', rfl⟩
  | none =>
    exfalso
    exact (List.find?_eq_none.mp hfind c hc) (by simp [hname])

lemma find?_eq_self_of_nodup (configs : List TableConfig)
    (hnodup : (configNames configs).Nodup) (c : TableConfig) (hc : c ∈ configs) :
    configs.find? (fun x => x.table_name == c.table_name) = some c := by
  induction configs with
  | nil => simp at hc
  | cons c₀ rest ih =>
    have hnames : configNames (c₀ :: rest) = c₀.table_name :: configNames rest := by
      simp [configNames]
    rw [hnames] at hnodup
    obtain ⟨hhead, hrest⟩ := List.nodup_cons.mp hnodup
    rcases List.mem_cons.mp hc with h | h
    · subst h
      exact List.find?_cons_of_pos _ (by simp)
    · have hne : (c₀.table_name == c.table_name) = false := by
        rw [beq_eq_false_iff_ne]
        intro heq
        exact hhead (heq ▸ List.mem_map_of_mem _ h)
      rw [List.find?_cons_of_neg (p := fun x : TableConfig => x.table_name == c.table_name) _
        (by simp [hne])]
      exact ih hrest h

lemma depsOf_eq_of_nodup (configs : List TableConfig)
    (hnodup : (configNames configs).Nodup) (c : TableConfig) (hc : c ∈ configs) :
    depsOf configs c.table_name = c.dependencies := by
  unfold depsOf
  rw [find?_eq_self_of_nodup configs hnodup c hc]

/-- Under closedness and enough fuel, `dfsStep` always succeeds (the find?
of `config_map[name]` can never fail, and the fuel bound is respected). -/
lemma dfsStep_total (configs : List TableConfig) (hclosed : ClosedDeps configs) :
    ∀ (fuel : Nat) (inp : String ⊕ List String) (visited : List String)
      (order : List TableConfig) (stk : List String),
      (∀ n ∈ inpNames inp, n ∈ configNames configs) →
      visited.Nodup →
      (∀ n ∈ visited, n ∈ namePool configs) →
      fuelNeed configs inp visited ≤ fuel →
      visited.Perm (order.map (fun c => c.table_name) ++ stk) →
      GoodVisited configs visited stk →
      ∃ visited' order', dfsStep configs fuel inp visited order = .ok (visited', order') := by
  intro fuel
  induction fuel with
  | zero =>
    intro inp visited order stk hin hnd hvp hfuel hperm hgood
    exfalso
    cases inp <;> simp only [fuelNeed] at hfuel <;> omega
  | succ fuel ih =>
    intro inp visited order stk hin hnd hvp hfuel hperm hgood
    cases inp with
    | inl name =>
      have hnamecn : name ∈ configNames configs := hin name (by simp [inpNames])
      have hnamePool : name ∈ namePool configs := List.mem_append.mpr (Or.inl hnamecn)
      by_cases hv : name ∈ visited
      · exact ⟨visited, order, by simp [dfsStep, hv]⟩
      · obtain ⟨c, hfind⟩ := find?_isSome_of_mem_configNames configs name hnamecn
        have hdeps_eq : depsOf configs name = c.dependencies := by
          simp [depsOf, hfind]
        have hcmem : c ∈ configs := List.mem_of_find?_eq_some hfind
        have hdscn : ∀ n ∈ inpNames (Sum.inr (depsOf configs name) : String ⊕ List String),
            n ∈ configNames configs := by
          intro n hn
          simp only [inpNames, hdeps_eq] at hn
          exact hclosed c hcmem n hn
        have hnd' : (name :: visited).Nodup := List.nodup_cons.mpr ⟨hv, hnd⟩
        have hvp' : ∀ n ∈ name :: visited, n ∈ namePool configs := by
          intro n hn
          rcases List.mem_cons.mp hn with h' | h'
          · exact h' ▸ hnamePool
          · exact hvp n h'
        have hlenlt : visited.length + 1 ≤ (namePool configs).length := by
          have h0 := length_le_of_nodup_subset (name :: visited) (namePool configs) hnd' hvp'
          simpa using h0
        have hfuel' : fuelNeed configs (Sum.inr (depsOf configs name)) (name :: visited) ≤ fuel := by
          have hdl : (depsOf configs name).length ≤ (allDeps configs).length :=
            depsOf_length_le configs name
          simp only [fuelNeed, List.length_cons] at hfuel ⊢
          obtain ⟨j, hj⟩ : ∃ j, (namePool configs).length - visited.length = j + 1 :=
            ⟨(namePool configs).length - visited.length - 1, by omega⟩
          have hj' : (namePool configs).length - (visited.length + 1) = j := by omega
          rw [hj, Nat.succ_mul] at hfuel
          rw [hj']
          omega
        have hperm' : (name :: visited).Perm
            (order.map (fun c => c.table_name) ++ name :: stk) :=
          (hperm.cons name).trans List.perm_middle.symm
        have hgood' : GoodVisited configs (name :: visited) (name :: stk) := by
          intro n hn
          rcases List.mem_cons.mp hn with h' | h'
          · exact Or.inl (h' ▸ List.mem_cons_self _ _)
          · rcases hgood n h' with hs | ⟨hc', hd'⟩
            · exact Or.inl (List.mem_cons_of_mem _ hs)
            · exact Or.inr ⟨hc', fun d hdm => List.mem_cons_of_mem _ (hd' d hdm)⟩
        obtain ⟨v₁, o₁, hrec⟩ := ih (Sum.inr (depsOf configs name)) (name :: visited) order
          (name :: stk) hdscn hnd' hvp' hfuel' hperm' hgood'
        exact ⟨v₁, o₁ ++ [c], by simp [dfsStep, hv, hrec, hfind]⟩
    | inr ds =>
      cases ds with
      | nil => exact ⟨visited, order, by simp [dfsStep]⟩
      | cons d ds =>
        have hdin : ∀ n ∈ inpNames (Sum.inl d : String ⊕ List String),
            n ∈ configNames configs := by
          intro n hn
          simp only [inpNames, List.mem_singleton] at hn
          rw [hn]
          exact hin d (List.mem_cons_self _ _)
        have hdpool : ∀ n ∈ inpNames (Sum.inl d : String ⊕ List String),
            n ∈ namePool configs := by
          intro n hn
          exact List.mem_append.mpr (Or.inl (hdin n hn))
        have hfuel₁ : fuelNeed configs (Sum.inl d) visited ≤ fuel := by
          simp only [fuelNeed, List.length_cons] at hfuel ⊢
          omega
        obtain ⟨v₁, o₁, hrec₁⟩ := ih (Sum.inl d) visited order stk hdin hnd hvp hfuel₁ hperm hgood
        obtain ⟨hmono₁, hnd₁, hvp₁, hinv₁, hbound₁, -, hperm₁, hgood₁⟩ :=
          dfsStep_ok_post configs fuel (Sum.inl d) visited order stk hdpool hnd hvp hperm hgood
            v₁ o₁ hrec₁
        have hdscn : ∀ n ∈ inpNames (Sum.inr ds : String ⊕ List String),
            n ∈ configNames configs := by
          intro n hn
          simp only [inpNames] at hn
          exact hin n (List.mem_cons_of_mem _ hn)
        have hlen₁ : visited.length ≤ v₁.length :=
          length_le_of_nodup_subset visited v₁ hnd hmono₁
        have hfuel₂ : fuelNeed configs (Sum.inr ds) v₁ ≤ fuel := by
          simp only [fuelNeed, List.length_cons] at hfuel ⊢
          have hmul : ((namePool configs).length - v₁.length) * ((allDeps configs).length + 1)
              ≤ ((namePool configs).length - visited.length) * ((allDeps configs).length + 1) :=
            Nat.mul_le_mul_right _ (by omega)
          omega
        obtain ⟨v₂, o₂, hrec₂⟩ := ih (Sum.inr ds) v₁ o₁ stk hdscn hnd₁ hvp₁ hfuel₂ hperm₁ hgood₁
        exact ⟨v₂, o₂, by simp [dfsStep, hrec₁, hrec₂]⟩

lemma config_eq_of_name_eq (configs : List TableConfig)
    (hnodup : (configNames configs).Nodup) (c c' : TableConfig)
    (hc : c ∈ configs) (hc' : c' ∈ configs) (h : c.table_name = c'.table_name) :
    c = c' := by
  have h1 := find?_eq_self_of_nodup configs hnodup c hc
  have h2 := find?_eq_self_of_nodup configs hnodup c' hc'
  rw [h] at h1
  rw [h1] at h2
  exact Option.some.inj h2

lemma topLevel_hyps (configs : List TableConfig) :
    (∀ n ∈ inpNames (Sum.inr (configNames configs) : String ⊕ List String),
      n ∈ namePool configs) ∧
    fuelNeed configs (Sum.inr (configNames configs)) [] ≤ topoFuel configs ∧
    ([] : List String).Perm
      (([] : List TableConfig).map (fun c => c.table_name) ++ ([] : List String)) ∧
    GoodVisited configs [] [] := by
  refine ⟨?_, ?_, by simp, ?_⟩
  · intro n hn
    simp only [inpNames] at hn
    exact List.mem_append.mpr (Or.inl hn)
  · have h1 : (namePool configs).length = configs.length + (allDeps configs).length := by
      simp [namePool, configNames]
    have h2 : (configNames configs).length = configs.length := by
      simp [configNames]
    simp only [fuelNeed, topoFuel, List.length_nil, Nat.sub_zero, h1, h2]
    omega
  · intro n hn
    simp at hn

lemma resolver_closed_ok (configs : List TableConfig)
    (hnodup : (configNames configs).Nodup) (hclosed : ClosedDeps configs) :
    ∃ order, orderTableConfigsByDependency configs = .ok order ∧ order.Perm configs ∧
      ∃ v_f, dfsStep configs (topoFuel configs)
        (Sum.inr (configNames configs)) [] [] = .ok (v_f, order) := by
  obtain ⟨hin_pool, hfuel0, hperm0, hgood0⟩ := topLevel_hyps configs
  have hnd0 : ([] : List String).Nodup := List.nodup_nil
  have hvp0 : ∀ n ∈ ([] : List String), n ∈ namePool configs := by
    intro n hn
    simp at hn
  have hin_cn : ∀ n ∈ inpNames (Sum.inr (configNames configs) : String ⊕ List String),
      n ∈ configNames configs := by
    intro n hn
    simpa [inpNames] using hn
  obtain ⟨v_f, Δ, hstep⟩ := dfsStep_total configs hclosed (topoFuel configs)
    (Sum.inr (configNames configs)) [] [] [] hin_cn hnd0 hvp0 hfuel0 hperm0 hgood0
  have hstep' : dfsStep configs (topoFuel configs)
      (Sum.inr (configs.map (fun c => c.table_name))) [] [] = .ok (v_f, Δ) := hstep
  have horder : orderTableConfigsByDependency configs = .ok Δ := by
    simp [orderTableConfigsByDependency, hstep']
  obtain ⟨-, hndf, hvpf, hinvf, -, ⟨Δ', hΔ', hΔmem⟩, hpermf, -⟩ :=
    dfsStep_ok_post configs (topoFuel configs) (Sum.inr (configNames configs)) [] [] []
      hin_pool hnd0 hvp0 hperm0 hgood0 v_f Δ hstep
  have hΔeq : Δ' = Δ := by simpa using hΔ'.symm
  rw [hΔeq] at hΔmem
  have hvfcn : ∀ n ∈ v_f, n ∈ configNames configs := by
    intro n hn
    rcases List.mem_append.mp (hvpf n hn) with h | h
    · exact h
    · exact allDeps_subset_configNames configs hclosed n h
  have hcnvf : ∀ n ∈ configNames configs, n ∈ v_f := by
    intro n hn
    exact hinvf n (by simpa [inpNames] using hn)
  have hvfperm : v_f.Perm (configNames configs) :=
    (List.perm_ext_iff_of_nodup hndf hnodup).mpr (fun a => ⟨hvfcn a, hcnvf a⟩)
  have hΔnames : (Δ.map (fun c => c.table_name)).Perm (configNames configs) := by
    have h0 := hpermf.symm.trans hvfperm
    simpa using h0
  have hΔnamesNodup : (Δ.map (fun c => c.table_name)).Nodup :=
    hΔnames.nodup_iff.mpr hnodup
  have hΔnodup : Δ.Nodup := hΔnamesNodup.of_map
  have hconfigsNodup : configs.Nodup := hnodup.of_map
  have hmemiff : ∀ c, c ∈ Δ ↔ c ∈ configs := by
    intro c
    constructor
    · intro hc
      exact hΔmem c hc
    · intro hc
      have h1 : c.table_name ∈ configNames configs := by
        show c.table_name ∈ configs.map (fun c => c.table_name)
        exact List.mem_map_of_mem _ hc
      have h2 : c.table_name ∈ Δ.map (fun c => c.table_name) :=
        hΔnames.symm.mem_iff.mp h1
      rcases List.mem_map.mp h2 with ⟨c', hc', hname⟩
      have hc'configs : c' ∈ configs := hΔmem c' hc'
      have : c' = c := config_eq_of_name_eq configs hnodup c' c hc'configs hc hname
      exact this ▸ hc'
  exact ⟨Δ, horder, (List.perm_ext_iff_of_nodup hΔnodup hconfigsNodup).mpr hmemiff,
    v_f, hstep⟩

lemma resolver_unclosed_error (configs : List TableConfig)
    (hnodup : (configNames configs).Nodup) (hnc : ¬ ClosedDeps configs) :
    ∃ n, orderTableConfigsByDependency configs = .error (.keyError n) := by
  obtain ⟨hin_pool, hfuel0, hperm0, hgood0⟩ := topLevel_hyps configs
  have hnd0 : ([] : List String).Nodup := List.nodup_nil
  have hvp0 : ∀ n ∈ ([] : List String), n ∈ namePool configs := by
    intro n hn
    simp at hn
  cases hstep : dfsStep configs (topoFuel configs)
      (Sum.inr (configNames configs)) [] [] with
  | ok p =>
    exfalso
    obtain ⟨v_f, Δ⟩ := p
    obtain ⟨-, -, -, hinvf, -, -, -, hgoodf⟩ :=
      dfsStep_ok_post configs (topoFuel configs) (Sum.inr (configNames configs)) [] [] []
        hin_pool hnd0 hvp0 hperm0 hgood0 v_f Δ hstep
    apply hnc
    intro c hc d hd
    have hct : c.table_name ∈ v_f := by
      apply hinvf
      simp only [inpNames]
      show c.table_name ∈ configs.map (fun c => c.table_name)
      exact List.mem_map_of_mem _ hc
    rcases hgoodf c.table_name hct with hs | ⟨-, hdeps⟩
    · simp at hs
    · have hd' : d ∈ depsOf configs c.table_name := by
        rw [depsOf_eq_of_nodup configs hnodup c hc]
        exact hd
      have hdv : d ∈ v_f := hdeps d hd'
      rcases hgoodf d hdv with hs | ⟨hdcn, -⟩
      · simp at hs
      · exact hdcn
  | error e =>
    cases e with
    | keyError n =>
      have hstep' : dfsStep configs (topoFuel configs)
          (Sum.inr (configs.map (fun c => c.table_name))) [] []
            = .error (.keyError n) := hstep
      exact ⟨n, by simp [orderTableConfigsByDependency, hstep']⟩
    | fuelOut =>
      exfalso
      obtain ⟨hnf, -⟩ := dfsStep_invariant configs (topoFuel configs)
        (Sum.inr (configNames configs)) [] [] [] hin_pool hnd0 hvp0 hfuel0 hperm0 hgood0
      exact hnf hstep

/-- C10: with unique table names, the resolver is total exactly on closed
configuration sets.  When every declared parent names a supplied config, it
returns an order containing each supplied table exactly once (a permutation
of the input) — whether or not the dependency graph is cyclic.  When some
table names an absent parent, it aborts with the unhandled key-lookup error
of `order.append(config_map[table_name])` instead of returning an order. -/
theorem c10_resolver_totality (configs : List TableConfig)
    (hnodup : (configNames configs).Nodup) :
    (ClosedDeps configs →
      ∃ order, orderTableConfigsByDependency configs = .ok order ∧ order.Perm configs) ∧
    (¬ ClosedDeps configs →
      ∃ n, orderTableConfigsByDependency configs = .error (.keyError n)) := by
  constructor
  · intro hclosed
    obtain ⟨order, horder, hperm, -⟩ := resolver_closed_ok configs hnodup hclosed
    exact ⟨order, horder, hperm⟩
  · intro hnc
    exact resolver_unclosed_error configs hnodup hnc

/-- Witness for C10 at a concrete closed two-table configuration. -/
theorem c10_resolver_totality_witness :
    (ClosedDeps [c2cfgA, c2cfgB] →
      ∃ order, orderTableConfigsByDependency [c2cfgA, c2cfgB] = .ok order ∧
        order.Perm [c2cfgA, c2cfgB]) ∧
    (¬ ClosedDeps [c2cfgA, c2cfgB] →
      ∃ n, orderTableConfigsByDependency [c2cfgA, c2cfgB] = .error (.keyError n)) :=
  c10_resolver_totality [c2cfgA, c2cfgB] (by decide)

/-- Every config in the list is preceded by configs covering all its
declared parent tables. -/
def ParentsFirst (order : List TableConfig) : Prop :=
  ∀ (j : Nat) (hj : j < order.length), ∀ d ∈ (order[j]).dependencies,
    d ∈ (order.take j).map (fun c => c.table_name)

lemma parentsFirst_append (order : List TableConfig) (c : TableConfig)
    (h : ParentsFirst order)
    (hc : ∀ d ∈ c.dependencies, d ∈ order.map (fun c => c.table_name)) :
    ParentsFirst (order ++ [c]) := by
  intro j hj d hd
  by_cases hlt : j < order.length
  · have hget : (order ++ [c])[j] = order[j] := List.getElem_append_left hlt
    rw [hget] at hd
    have htake : (order ++ [c]).take j = order.take j := by
      rw [List.take_append_eq_append_take]
      have h0 : j - order.length = 0 := by omega
      rw [h0]
      simp
    rw [htake]
    exact h j hlt d hd
  · have hlen : (order ++ [c]).length = order.length + 1 := by simp
    have hj' : j = order.length := by omega
    subst hj'
    have hget : (order ++ [c])[order.length] = c :=
      List.getElem_concat_length order c order.length rfl hj
    rw [hget] at hd
    have htake : (order ++ [c]).take order.length = order := List.take_left order [c]
    rw [htake]
    exact hc d hd

/-- Rank precondition on the ghost stack: everything the input is about to
visit ranks strictly below everything still on the stack. -/
def StackBelow (rank : String → Nat) (inp : String ⊕ List String)
    (stk : List String) : Prop :=
  ∀ n ∈ inpNames inp, ∀ p ∈ stk, rank n < rank p

/-- Under a ranking that strictly decreases from each table to its declared
parents (acyclicity), every successful `dfsStep` call preserves the
parents-first property of the emitted order: a visited dependency is always
already emitted, never still on the stack. -/
lemma dfsStep_parents_first (configs : List TableConfig) (rank : String → Nat)
    (hrank : ∀ c ∈ configs, ∀ d ∈ c.dependencies, rank d < rank c.table_name) :
    ∀ (fuel : Nat) (inp : String ⊕ List String) (visited : List String)
      (order : List TableConfig) (stk : List String)
      (visited' : List String) (order' : List TableConfig),
      dfsStep configs fuel inp visited order = .ok (visited', order') →
      (∀ n ∈ inpNames inp, n ∈ namePool configs) →
      visited.Nodup →
      (∀ n ∈ visited, n ∈ namePool configs) →
      visited.Perm (order.map (fun c => c.table_name) ++ stk) →
      GoodVisited configs visited stk →
      StackBelow rank inp stk →
      ParentsFirst order →
      ParentsFirst order' := by
  intro fuel
  induction fuel with
  | zero =>
    intro inp visited order stk v' o' h
    exact Except.noConfusion h
  | succ fuel ih =>
    intro inp visited order stk v' o' h hin hnd hvp hperm hgood hsb hpf
    cases inp with
    | inl name =>
      have hnamePool : name ∈ namePool configs := hin name (by simp [inpNames])
      by_cases hv : name ∈ visited
      · simp only [dfsStep, if_pos hv, Except.ok.injEq, Prod.mk.injEq] at h
        obtain ⟨-, h2⟩ := h
        subst h2
        exact hpf
      · cases hrec : dfsStep configs fuel (Sum.inr (depsOf configs name)) (name :: visited) order with
        | error e =>
          simp only [dfsStep, if_neg hv, hrec] at h
          exact Except.noConfusion h
        | ok p =>
          obtain ⟨v₁, o₁⟩ := p
          cases hfind : configs.find? (fun c => c.table_name == name) with
          | none =>
            simp only [dfsStep, if_neg hv, hrec, hfind] at h
            exact Except.noConfusion h
          | some c =>
            obtain ⟨hcname, hcmemnames⟩ := find?_name_mem_configNames configs name c hfind
            have hcmem : c ∈ configs := List.mem_of_find?_eq_some hfind
            have hdeps_eq : depsOf configs name = c.dependencies := by
              simp [depsOf, hfind]
            simp only [dfsStep, if_neg hv, hrec, hfind, Except.ok.injEq, Prod.mk.injEq] at h
            obtain ⟨-, h2⟩ := h
            subst h2
            have hdspool : ∀ n ∈ inpNames (Sum.inr (depsOf configs name) : String ⊕ List String),
                n ∈ namePool configs := by
              intro n hn
              simp only [inpNames] at hn
              exact List.mem_append.mpr (Or.inr (depsOf_subset_allDeps configs name n hn))
            have hnd' : (name :: visited).Nodup := List.nodup_cons.mpr ⟨hv, hnd⟩
            have hvp' : ∀ n ∈ name :: visited, n ∈ namePool configs := by
              intro n hn
              rcases List.mem_cons.mp hn with h' | h'
              · exact h' ▸ hnamePool
              · exact hvp n h'
            have hperm' : (name :: visited).Perm
                (order.map (fun c => c.table_name) ++ name :: stk) :=
              (hperm.cons name).trans List.perm_middle.symm
            have hgood' : GoodVisited configs (name :: visited) (name :: stk) := by
              intro n hn
              rcases List.mem_cons.mp hn with h' | h'
              · exact Or.inl (h' ▸ List.mem_cons_self _ _)
              · rcases hgood n h' with hs | ⟨hc', hd'⟩
                · exact Or.inl (List.mem_cons_of_mem _ hs)
                · exact Or.inr ⟨hc', fun d hdm => List.mem_cons_of_mem _ (hd' d hdm)⟩
            have hsb' : StackBelow rank (Sum.inr (depsOf configs name)) (name :: stk) := by
              intro n hn p hp
              simp only [inpNames, hdeps_eq] at hn
              have hrank_n : rank n < rank name := by
                have h0 := hrank c hcmem n hn
                rwa [hcname] at h0
              rcases List.mem_cons.mp hp with h' | h'
              · exact h' ▸ hrank_n
              · exact hrank_n.trans (hsb name (by simp [inpNames]) p h')
            have hpf₁ := ih (Sum.inr (depsOf configs name)) (name :: visited) order
              (name :: stk) v₁ o₁ hrec hdspool hnd' hvp' hperm' hgood' hsb' hpf
            obtain ⟨-, -, -, hinv₁, -, -, hperm₁, -⟩ :=
              dfsStep_ok_post configs fuel (Sum.inr (depsOf configs name)) (name :: visited)
                order (name :: stk) hdspool hnd' hvp' hperm' hgood' v₁ o₁ hrec
            have hdepso : ∀ d ∈ c.dependencies, d ∈ o₁.map (fun c => c.table_name) := by
              intro d hd
              have hdv : d ∈ v₁ := hinv₁ d (by simp [inpNames, hdeps_eq, hd])
              have hmem : d ∈ o₁.map (fun c => c.table_name) ++ name :: stk :=
                hperm₁.mem_iff.mp hdv
              rcases List.mem_append.mp hmem with h' | h'
              · exact h'
              · exfalso
                have hrank_d : rank d < rank name := by
                  have h0 := hrank c hcmem d hd
                  rwa [hcname] at h0
                rcases List.mem_cons.mp h' with h'' | h''
                · rw [h''] at hrank_d
                  exact absurd hrank_d (lt_irrefl _)
                · have h0 : rank name < rank d := hsb name (by simp [inpNames]) d h''
                  omega
            exact parentsFirst_append o₁ c hpf₁ hdepso
    | inr ds =>
      cases ds with
      | nil =>
        simp only [dfsStep, Except.ok.injEq, Prod.mk.injEq] at h
        obtain ⟨-, h2⟩ := h
        subst h2
        exact hpf
      | cons d ds =>
        have hdpool : ∀ n ∈ inpNames (Sum.inl d : String ⊕ List String),
            n ∈ namePool configs := by
          intro n hn
          simp only [inpNames, List.mem_singleton] at hn
          rw [hn]
          exact hin d (List.mem_cons_self _ _)
        cases hrec₁ : dfsStep configs fuel (Sum.inl d) visited order with
        | error e =>
          simp only [dfsStep, hrec₁] at h
          exact Except.noConfusion h
        | ok p =>
          obtain ⟨v₁, o₁⟩ := p
          have hsb₁ : StackBelow rank (Sum.inl d) stk := by
            intro n hn p' hp'
            simp only [inpNames, List.mem_singleton] at hn
            rw [hn]
            exact hsb d (List.mem_cons_self _ _) p' hp'
          have hpf₁ := ih (Sum.inl d) visited order stk v₁ o₁ hrec₁ hdpool hnd hvp
            hperm hgood hsb₁ hpf
          obtain ⟨-, hnd₁, hvp₁, -, -, -, hperm₁, hgood₁⟩ :=
            dfsStep_ok_post configs fuel (Sum.inl d) visited order stk hdpool hnd hvp
              hperm hgood v₁ o₁ hrec₁
          have hdspool : ∀ n ∈ inpNames (Sum.inr ds : String ⊕ List String),
              n ∈ namePool configs := by
            intro n hn
            simp only [inpNames] at hn
            exact hin n (List.mem_cons_of_mem _ hn)
          have hsb₂ : StackBelow rank (Sum.inr ds) stk := by
            intro n hn p' hp'
            simp only [inpNames] at hn
            exact hsb n (List.mem_cons_of_mem _ hn) p' hp'
          cases hrec₂ : dfsStep configs fuel (Sum.inr ds) v₁ o₁ with
          | error e =>
            simp only [dfsStep, hrec₁, hrec₂] at h
            exact Except.noConfusion h
          | ok q =>
            obtain ⟨v₂, o₂⟩ := q
            simp only [dfsStep, hrec₁, hrec₂, Except.ok.injEq, Prod.mk.injEq] at h
            obtain ⟨-, h2⟩ := h
            subst h2
            exact ih (Sum.inr ds) v₁ o₁ stk v₂ o₂ hrec₂ hdspool hnd₁ hvp₁ hperm₁
              hgood₁ hsb₂ hpf₁

/-- C1: for a closed, acyclic configuration set with unique table names
(acyclicity witnessed by a ranking that strictly decreases from each table
to its declared parents — such a ranking exists exactly when the
child-to-parent dependency graph has no cycle), the resolver returns an
ordering of the supplied configurations in which every declared parent
appears strictly earlier than each table that depends on it. -/
theorem c1_resolver_parents_first (configs : List TableConfig)
    (hnodup : (configNames configs).Nodup) (hclosed : ClosedDeps configs)
    (rank : String → Nat)
    (hrank : ∀ c ∈ configs, ∀ d ∈ c.dependencies, rank d < rank c.table_name) :
    ∃ order, orderTableConfigsByDependency configs = .ok order ∧
      order.Perm configs ∧
      ∀ (j : Nat) (hj : j < order.length), ∀ d ∈ (order[j]).dependencies,
        ∃ i, ∃ (hi : i < order.length), i < j ∧ (order[i]).table_name = d := by
  obtain ⟨order, horder, hperm, v_f, hstep⟩ := resolver_closed_ok configs hnodup hclosed
  obtain ⟨hin_pool, -, hperm0, hgood0⟩ := topLevel_hyps configs
  have hnd0 : ([] : List String).Nodup := List.nodup_nil
  have hvp0 : ∀ n ∈ ([] : List String), n ∈ namePool configs := by
    intro n hn
    simp at hn
  have hsb0 : StackBelow rank (Sum.inr (configNames configs)) [] := by
    intro n hn p hp
    simp at hp
  have hpf0 : ParentsFirst [] := by
    intro j hj
    simp at hj
  have hpf : ParentsFirst order :=
    dfsStep_parents_first configs rank hrank (topoFuel configs)
      (Sum.inr (configNames configs)) [] [] [] v_f order hstep hin_pool hnd0 hvp0
      hperm0 hgood0 hsb0 hpf0
  refine ⟨order, horder, hperm, ?_⟩
  intro j hj d hd
  have hmem := hpf j hj d hd
  rcases List.mem_map.mp hmem with ⟨c', hc', hname⟩
  rcases List.mem_iff_getElem.mp hc' with ⟨i, hi, hgi⟩
  have hij : i < j := by
    rw [List.length_take] at hi
    omega
  have hiord : i < order.length := by
    rw [List.length_take] at hi
    omega
  refine ⟨i, hiord, hij, ?_⟩
  have hoi : (order.take j)[i] = order[i] := List.getElem_take order
  rw [hoi] at hgi
  rw [hgi]
  exact hname

/-- Rank function used in the C1 witness. -/
def c1rank : String → Nat := fun n => if n = "users" then 0 else 1

/-- Config used in the C1 witness: `orders` depending on `users`. -/
def c1cfgOrders : TableConfig :=
  { table_name := "orders", columns := ["order_code"], data := [],
    dependencies := ["users"] }

/-- Config used in the C1 witness: `users`, no dependencies. -/
def c1cfgUsers : TableConfig :=
  { table_name := "users", columns := ["user_code"], data := [], dependencies := [] }

/-- Witness for C1 at a concrete acyclic two-table configuration. -/
theorem c1_resolver_parents_first_witness :
    ∃ order, orderTableConfigsByDependency [c1cfgOrders, c1cfgUsers] = .ok order ∧
      order.Perm [c1cfgOrders, c1cfgUsers] ∧
      ∀ (j : Nat) (hj : j < order.length), ∀ d ∈ (order[j]).dependencies,
        ∃ i, ∃ (hi : i < order.length), i < j ∧ (order[i]).table_name = d :=
  c1_resolver_parents_first [c1cfgOrders, c1cfgUsers] (by decide)
    (by unfold ClosedDeps; decide) c1rank (by decide)

/-- Table `x` of the C9 counterexample: depends on `b`. -/
def c9cfgX : TableConfig :=
  { table_name := "x", columns := [], data := [], dependencies := ["b"] }

/-- Table `a` of the C9 counterexample: no dependencies, input index 1. -/
def c9cfgA : TableConfig :=
  { table_name := "a", columns := [], data := [], dependencies := [] }

/-- Table `b` of the C9 counterexample: no dependencies, input index 2. -/
def c9cfgB : TableConfig :=
  { table_name := "b", columns := [], data := [], dependencies := [] }

/-- C9, counterexample to the claim as stated: among the dependency-free
tables `a` (input index 1) and `b` (input index 2), the resolver outputs
`b` first (output index 0) and `a` last (output index 2): the DFS pulls `b`
forward as a parent of the earlier table `x`, so the tie-break does not
preserve the original input order. -/
theorem c9_stability_counterexample :
    orderTableConfigsByDependency [c9cfgX, c9cfgA, c9cfgB]
        = .ok [c9cfgB, c9cfgX, c9cfgA] ∧
    c9cfgA.dependencies = [] ∧ c9cfgB.dependencies = [] :=
  ⟨rfl, rfl, rfl⟩

/-- Processing a concatenated name list is processing the first list and
then the second on the intermediate state, with the fuel spent on the first
list's spine deducted. -/
lemma dfsStep_inr_append (configs : List TableConfig) :
    ∀ (l₁ l₂ : List String) (fuel : Nat) (visited : List String)
      (order : List TableConfig),
      dfsStep configs fuel (.inr (l₁ ++ l₂)) visited order =
        match dfsStep configs fuel (.inr l₁) visited order with
        | .error e => .error e
        | .ok (v₁, o₁) => dfsStep configs (fuel - l₁.length) (.inr l₂) v₁ o₁ := by
  intro l₁
  induction l₁ with
  | nil =>
    intro l₂ fuel visited order
    cases fuel with
    | zero => rfl
    | succ f => rfl
  | cons x l₁ ih =>
    intro l₂ fuel visited order
    cases fuel with
    | zero => rfl
    | succ f =>
      show dfsStep configs (f + 1) (.inr (x :: (l₁ ++ l₂))) visited order = _
      cases hx : dfsStep configs f (Sum.inl x) visited order with
      | error e => simp [dfsStep, hx]
      | ok p =>
        obtain ⟨v₁, o₁⟩ := p
        have hsub : f + 1 - (x :: l₁).length = f - l₁.length := by
          simp only [List.length_cons]
          omega
        simp only [dfsStep, hx, hsub]
        rw [ih l₂ f v₁ o₁]

lemma nodup_append_cons_split {a : String} {l₁ l₂ : List String}
    (h : (l₁ ++ a :: l₂).Nodup) : a ∉ l₁ ∧ a ∉ l₂ ∧ (l₁ ++ l₂).Nodup := by
  have h' : (a :: (l₁ ++ l₂)).Nodup := List.perm_middle.nodup_iff.mp h
  obtain ⟨hna, hnd⟩ := List.nodup_cons.mp h'
  exact ⟨fun hm => hna (List.mem_append.mpr (Or.inl hm)),
    fun hm => hna (List.mem_append.mpr (Or.inr hm)), hnd⟩

lemma mem_order_of_name (configs : List TableConfig)
    (hnodup : (configNames configs).Nodup) (o : List TableConfig)
    (hsub : ∀ c ∈ o, c ∈ configs) (c : TableConfig) (hc : c ∈ configs)
    (hname : c.table_name ∈ o.map (fun x => x.table_name)) : c ∈ o := by
  rcases List.mem_map.mp hname with ⟨c', hc', heq⟩
  have h0 : c' = c := config_eq_of_name_eq configs hnodup c' c (hsub c' hc') hc heq
  exact h0 ▸ hc'

/-- C9 amended: the DFS tie-break does preserve input order for isolated
dependency-free tables — tables that declare no dependencies and that no
table declares as a parent.  (For a dependency-free table that some earlier
table depends on, the DFS emits it at the point where it is first reached
as a parent, which breaks input order, as the counterexample shows.) -/
theorem c9_isolated_ties_stable (pre mid post : List TableConfig)
    (cA cB : TableConfig) (order : List TableConfig)
    (hnodup : (configNames (pre ++ cA :: mid ++ cB :: post)).Nodup)
    (hAdeps : cA.dependencies = []) (hBdeps : cB.dependencies = [])
    (hAiso : cA.table_name ∉ allDeps (pre ++ cA :: mid ++ cB :: post))
    (hBiso : cB.table_name ∉ allDeps (pre ++ cA :: mid ++ cB :: post))
    (hok : orderTableConfigsByDependency (pre ++ cA :: mid ++ cB :: post)
      = .ok order) :
    ∃ i j, ∃ (hi : i < order.length) (hj : j < order.length),
      i < j ∧ order[i] = cA ∧ order[j] = cB := by
  have hcAmem : cA ∈ pre ++ cA :: mid ++ cB :: post := by simp
  have hcBmem : cB ∈ pre ++ cA :: mid ++ cB :: post := by simp
  have hcn : configNames (pre ++ cA :: mid ++ cB :: post)
      = pre.map (fun c => c.table_name) ++ cA.table_name ::
        (mid.map (fun c => c.table_name) ++ cB.table_name ::
          post.map (fun c => c.table_name)) := by
    simp [configNames]
  -- disjointness facts from Nodup
  have hnd0 := hnodup
  rw [hcn] at hnd0
  obtain ⟨hAnotpre, hAnotrest, hnd1⟩ := nodup_append_cons_split hnd0
  have hAnotmid : cA.table_name ∉ mid.map (fun c => c.table_name) := by
    intro hm
    exact hAnotrest (List.mem_append.mpr (Or.inl hm))
  have hABne : cA.table_name ≠ cB.table_name := by
    intro he
    exact hAnotrest (List.mem_append.mpr (Or.inr (by rw [he]; exact List.mem_cons_self _ _)))
  rw [← List.append_assoc] at hnd1
  obtain ⟨hBnotpm, -, -⟩ := nodup_append_cons_split hnd1
  have hBnotpre : cB.table_name ∉ pre.map (fun c => c.table_name) := by
    intro hm
    exact hBnotpm (List.mem_append.mpr (Or.inl hm))
  have hBnotmid : cB.table_name ∉ mid.map (fun c => c.table_name) := by
    intro hm
    exact hBnotpm (List.mem_append.mpr (Or.inr hm))
  -- membership in the name pool for each stage input
  have hnamesub : ∀ n ∈ configNames (pre ++ cA :: mid ++ cB :: post),
      n ∈ namePool (pre ++ cA :: mid ++ cB :: post) := fun n hn =>
    List.mem_append.mpr (Or.inl hn)
  have hpre_cn : ∀ n ∈ pre.map (fun c => c.table_name),
      n ∈ configNames (pre ++ cA :: mid ++ cB :: post) := by
    intro n hn
    rw [hcn]
    exact List.mem_append.mpr (Or.inl hn)
  have hmid_cn : ∀ n ∈ mid.map (fun c => c.table_name),
      n ∈ configNames (pre ++ cA :: mid ++ cB :: post) := by
    intro n hn
    rw [hcn]
    exact List.mem_append.mpr (Or.inr (List.mem_cons_of_mem _
      (List.mem_append.mpr (Or.inl hn))))
  have hpost_cn : ∀ n ∈ post.map (fun c => c.table_name),
      n ∈ configNames (pre ++ cA :: mid ++ cB :: post) := by
    intro n hn
    rw [hcn]
    exact List.mem_append.mpr (Or.inr (List.mem_cons_of_mem _
      (List.mem_append.mpr (Or.inr (List.mem_cons_of_mem _ hn)))))
  have hA_cn : cA.table_name ∈ configNames (pre ++ cA :: mid ++ cB :: post) := by
    rw [hcn]
    exact List.mem_append.mpr (Or.inr (List.mem_cons_self _ _))
  have hB_cn : cB.table_name ∈ configNames (pre ++ cA :: mid ++ cB :: post) := by
    rw [hcn]
    exact List.mem_append.mpr (Or.inr (List.mem_cons_of_mem _
      (List.mem_append.mpr (Or.inr (List.mem_cons_self _ _)))))
  -- unfold the run into stages
  unfold orderTableConfigsByDependency at hok
  cases hstep : dfsStep (pre ++ cA :: mid ++ cB :: post)
      (topoFuel (pre ++ cA :: mid ++ cB :: post))
      (Sum.inr ((pre ++ cA :: mid ++ cB :: post).map (fun c => c.table_name))) [] [] with
  | error e =>
    rw [hstep] at hok
    simp at hok
  | ok p =>
    rw [hstep] at hok
    obtain ⟨v_f, ord⟩ := p
    have hord : ord = order := by simpa using hok
    subst hord
    have hmapeq : (pre ++ cA :: mid ++ cB :: post).map (fun c => c.table_name)
        = pre.map (fun c => c.table_name) ++ cA.table_name ::
          (mid.map (fun c => c.table_name) ++ cB.table_name ::
            post.map (fun c => c.table_name)) := by
      simp
    rw [hmapeq, dfsStep_inr_append] at hstep
    cases hs1 : dfsStep (pre ++ cA :: mid ++ cB :: post)
        (topoFuel (pre ++ cA :: mid ++ cB :: post))
        (Sum.inr (pre.map (fun c => c.table_name))) [] [] with
    | error e =>
      simp only [hs1] at hstep
      exact Except.noConfusion hstep
    | ok p1 =>
      simp only [hs1] at hstep
      obtain ⟨v₁, o₁⟩ := p1
      obtain ⟨-, hnd₁, hvp₁, -, hbound₁, ⟨Δ₁, hΔ₁, hΔ₁mem⟩, hperm₁, hgood₁⟩ :=
        dfsStep_ok_post (pre ++ cA :: mid ++ cB :: post) _ _ [] [] []
          (fun n hn => hnamesub n (hpre_cn n (by simpa [inpNames] using hn)))
          List.nodup_nil (by intro n hn; simp at hn) (by simp)
          (by intro n hn; simp at hn) v₁ o₁ hs1
      have ho₁configs : ∀ c ∈ o₁, c ∈ pre ++ cA :: mid ++ cB :: post := by
        intro c hc
        apply hΔ₁mem
        have h0 : o₁ = Δ₁ := by simpa using hΔ₁
        rwa [h0] at hc
      -- `cA.table_name` is not yet visited
      have hAnotv₁ : cA.table_name ∉ v₁ := by
        intro hmem
        rcases hbound₁ cA.table_name hmem with hd | hrest
        · exact hAnotpre (by simpa [inpNames] using hd)
        · rcases hrest with hv | hA
          · simp at hv
          · exact hAiso hA
      -- step for `cA`
      cases hG1 : topoFuel (pre ++ cA :: mid ++ cB :: post)
          - (pre.map (fun c => c.table_name)).length with
      | zero =>
        rw [hG1] at hstep
        simp only [dfsStep] at hstep
        exact Except.noConfusion hstep
      | succ g1 =>
        rw [hG1] at hstep
        simp only [dfsStep] at hstep
        cases hsA : dfsStep (pre ++ cA :: mid ++ cB :: post) g1
            (Sum.inl cA.table_name) v₁ o₁ with
        | error e =>
          simp only [hsA] at hstep
          exact Except.noConfusion hstep
        | ok p2 =>
          simp only [hsA] at hstep
          obtain ⟨v₂, o₂⟩ := p2
          obtain ⟨-, hnd₂, hvp₂, hinA, hbound₂, ⟨Δ₂, hΔ₂, hΔ₂mem⟩, hperm₂, hgood₂⟩ :=
            dfsStep_ok_post (pre ++ cA :: mid ++ cB :: post) g1
              (Sum.inl cA.table_name) v₁ o₁ []
              (by intro n hn
                  simp only [inpNames, List.mem_singleton] at hn
                  rw [hn]
                  exact hnamesub _ hA_cn)
              hnd₁ hvp₁ hperm₁ hgood₁ v₂ o₂ hsA
          have ho₂configs : ∀ c ∈ o₂, c ∈ pre ++ cA :: mid ++ cB :: post := by
            intro c hc
            rw [hΔ₂] at hc
            rcases List.mem_append.mp hc with h' | h'
            · exact ho₁configs c h'
            · exact hΔ₂mem c h'
          -- `cA` has been emitted
          have hAino₂ : cA ∈ o₂ := by
            apply mem_order_of_name (pre ++ cA :: mid ++ cB :: post) hnodup o₂
              ho₂configs cA hcAmem
            have hAv₂ : cA.table_name ∈ v₂ := hinA cA.table_name (by simp [inpNames])
            have h0 := hperm₂.mem_iff.mp hAv₂
            simpa using h0
          -- `cB.table_name` still unvisited after `cA`'s step
          have hBnotv₂ : cB.table_name ∉ v₂ := by
            intro hmem
            rcases hbound₂ cB.table_name hmem with hd | hrest
            · simp only [inpNames, List.mem_singleton] at hd
              exact hABne hd.symm
            · rcases hrest with hv | hA'
              · rcases hbound₁ cB.table_name hv with hd' | hrest'
                · exact hBnotpre (by simpa [inpNames] using hd')
                · rcases hrest' with hv' | hA''
                  · simp at hv'
                  · exact hBiso hA''
              · exact hBiso hA'
          -- stage: the `mid` tables
          rw [dfsStep_inr_append] at hstep
          cases hs3 : dfsStep (pre ++ cA :: mid ++ cB :: post) g1
              (Sum.inr (mid.map (fun c => c.table_name))) v₂ o₂ with
          | error e =>
            simp only [hs3] at hstep
            exact Except.noConfusion hstep
          | ok p3 =>
            simp only [hs3] at hstep
            obtain ⟨v₃, o₃⟩ := p3
            obtain ⟨-, hnd₃, hvp₃, -, hbound₃, ⟨Δ₃, hΔ₃, hΔ₃mem⟩, hperm₃, hgood₃⟩ :=
              dfsStep_ok_post (pre ++ cA :: mid ++ cB :: post) g1
                (Sum.inr (mid.map (fun c => c.table_name))) v₂ o₂ []
                (fun n hn => hnamesub n (hmid_cn n (by simpa [inpNames] using hn)))
                hnd₂ hvp₂ hperm₂ hgood₂ v₃ o₃ hs3
            have ho₃configs : ∀ c ∈ o₃, c ∈ pre ++ cA :: mid ++ cB :: post := by
              intro c hc
              rw [hΔ₃] at hc
              rcases List.mem_append.mp hc with h' | h'
              · exact ho₂configs c h'
              · exact hΔ₃mem c h'
            have hBnotv₃ : cB.table_name ∉ v₃ := by
              intro hmem
              rcases hbound₃ cB.table_name hmem with hd | hrest
              · exact hBnotmid (by simpa [inpNames] using hd)
              · rcases hrest with hv | hA'
                · exact hBnotv₂ hv
                · exact hBiso hA'
            -- `cB` is not yet emitted
            have hBnoto₃ : cB ∉ o₃ := by
              intro hmem
              apply hBnotv₃
              apply hperm₃.mem_iff.mpr
              exact List.mem_append.mpr (Or.inl (List.mem_map_of_mem _ hmem))
            -- step for `cB`
            cases hG2 : g1 - (mid.map (fun c => c.table_name)).length with
            | zero =>
              rw [hG2] at hstep
              simp only [dfsStep] at hstep
              exact Except.noConfusion hstep
            | succ g2 =>
              rw [hG2] at hstep
              simp only [dfsStep] at hstep
              cases hsB : dfsStep (pre ++ cA :: mid ++ cB :: post) g2
                  (Sum.inl cB.table_name) v₃ o₃ with
              | error e =>
                simp only [hsB] at hstep
                exact Except.noConfusion hstep
              | ok p4 =>
                simp only [hsB] at hstep
                obtain ⟨v₄, o₄⟩ := p4
                obtain ⟨-, hnd₄, hvp₄, hinB, -, ⟨Δ₄, hΔ₄, hΔ₄mem⟩, hperm₄, hgood₄⟩ :=
                  dfsStep_ok_post (pre ++ cA :: mid ++ cB :: post) g2
                    (Sum.inl cB.table_name) v₃ o₃ []
                    (by intro n hn
                        simp only [inpNames, List.mem_singleton] at hn
                        rw [hn]
                        exact hnamesub _ hB_cn)
                    hnd₃ hvp₃ hperm₃ hgood₃ v₄ o₄ hsB
                have ho₄configs : ∀ c ∈ o₄, c ∈ pre ++ cA :: mid ++ cB :: post := by
                  intro c hc
                  rw [hΔ₄] at hc
                  rcases List.mem_append.mp hc with h' | h'
                  · exact ho₃configs c h'
                  · exact hΔ₄mem c h'
                have hBino₄ : cB ∈ o₄ := by
                  apply mem_order_of_name (pre ++ cA :: mid ++ cB :: post) hnodup o₄
                    ho₄configs cB hcBmem
                  have hBv₄ : cB.table_name ∈ v₄ := hinB cB.table_name (by simp [inpNames])
                  have h0 := hperm₄.mem_iff.mp hBv₄
                  simpa using h0
                -- final stage
                obtain ⟨-, -, -, -, -, ⟨Δ₅, hΔ₅, -⟩, -, -⟩ :=
                  dfsStep_ok_post (pre ++ cA :: mid ++ cB :: post) g2
                    (Sum.inr (post.map (fun c => c.table_name))) v₄ o₄ []
                    (fun n hn => hnamesub n (hpost_cn n (by simpa [inpNames] using hn)))
                    hnd₄ hvp₄ hperm₄ hgood₄ v_f ord hstep
                -- assemble the indices
                have hBinΔ₄ : cB ∈ Δ₄ := by
                  rw [hΔ₄] at hBino₄
                  rcases List.mem_append.mp hBino₄ with h' | h'
                  · exact absurd h' hBnoto₃
                  · exact h'
                subst hΔ₅
                subst hΔ₄
                subst hΔ₃
                rcases List.mem_iff_getElem.mp hAino₂ with ⟨i, hi₂, hgA⟩
                rcases List.mem_iff_getElem.mp hBinΔ₄ with ⟨j', hj', hgB⟩
                have hilen : i < (((o₂ ++ Δ₃) ++ Δ₄) ++ Δ₅).length := by
                  simp only [List.length_append]
                  omega
                have hjlen : o₂.length + Δ₃.length + j'
                    < (((o₂ ++ Δ₃) ++ Δ₄) ++ Δ₅).length := by
                  simp only [List.length_append]
                  omega
                have hb2 : i < (o₂ ++ Δ₃).length := by
                  simp only [List.length_append]
                  omega
                have hb3 : i < ((o₂ ++ Δ₃) ++ Δ₄).length := by
                  simp only [List.length_append]
                  omega
                have hjb4 : o₂.length + Δ₃.length + j' < ((o₂ ++ Δ₃) ++ Δ₄).length := by
                  simp only [List.length_append]
                  omega
                have hlen23 : (o₂ ++ Δ₃).length ≤ o₂.length + Δ₃.length + j' := by
                  simp only [List.length_append]
                  omega
                have hsub : o₂.length + Δ₃.length + j' - (o₂ ++ Δ₃).length = j' := by
                  simp only [List.length_append]
                  omega
                have hjbsub : o₂.length + Δ₃.length + j' - (o₂ ++ Δ₃).length < Δ₄.length := by
                  rw [hsub]
                  exact hj'
                refine ⟨i, o₂.length + Δ₃.length + j', hilen, hjlen, by omega, ?_, ?_⟩
                · have e1 : (((o₂ ++ Δ₃) ++ Δ₄) ++ Δ₅)[i] = ((o₂ ++ Δ₃) ++ Δ₄)[i] :=
                    List.getElem_append_left hb3
                  have e2 : ((o₂ ++ Δ₃) ++ Δ₄)[i] = (o₂ ++ Δ₃)[i] :=
                    List.getElem_append_left hb2
                  have e3 : (o₂ ++ Δ₃)[i] = o₂[i] :=
                    List.getElem_append_left hi₂
                  rw [e1, e2, e3]
                  exact hgA
                · have e1 : (((o₂ ++ Δ₃) ++ Δ₄) ++ Δ₅)[o₂.length + Δ₃.length + j']
                      = ((o₂ ++ Δ₃) ++ Δ₄)[o₂.length + Δ₃.length + j'] :=
                    List.getElem_append_left hjb4
                  have e2 : ((o₂ ++ Δ₃) ++ Δ₄)[o₂.length + Δ₃.length + j']
                      = Δ₄[o₂.length + Δ₃.length + j' - (o₂ ++ Δ₃).length] :=
                    List.getElem_append_right hlen23
                  have e3 : Δ₄[o₂.length + Δ₃.length + j' - (o₂ ++ Δ₃).length] = Δ₄[j'] := by
                    simp only [hsub]
                  rw [e1, e2, e3]
                  exact hgB

/-- Witness for the amended C9 theorem: on the input `[a, b]` with both
tables dependency-free and unreferenced, the resolver keeps `a` before `b`. -/
theorem c9_isolated_ties_stable_witness :
    ∃ i j, ∃ (hi : i < ([c9cfgA, c9cfgB] : List TableConfig).length)
      (hj : j < ([c9cfgA, c9cfgB] : List TableConfig).length),
      i < j ∧ ([c9cfgA, c9cfgB] : List TableConfig)[i] = c9cfgA ∧
        ([c9cfgA, c9cfgB] : List TableConfig)[j] = c9cfgB :=
  c9_isolated_ties_stable [] [] [] c9cfgA c9cfgB [c9cfgA, c9cfgB]
    (by decide) rfl rfl (by decide) (by decide) rfl

end MyTest
